import Mathlib

/-!
# Verification of the Playwright web crawler core

This file gives a shallow embedding of the crawl-orchestration core of the
`WebCrawler` repository and proves/refutes the frozen claims about it.

The embedding covers:

* the URL handling used by `Crawler.extract_links` (`webcrawler/crawler.py`):
  a model of `urllib.parse.urlsplit` / `urlparse` / `urljoin` (CPython 3.11
  semantics; the control-character stripping, IPv6 bracket validation and
  netloc NFKC check of the stdlib are omitted — they do not affect any claim),
  the same-origin filter and the fragment-stripping normalization;
* `Crawler.crawl_page` and `Crawler.crawl` (the breadth-first loop), with
  ghost logs recording navigations, frontier enqueues and sleep calls;
* the `AdvancedCrawler` proxy-rotation bookkeeping of
  `examples/advanced_crawl.py`, with a small heap of browser contexts/pages
  modelling Python's reference semantics for `_rotate_proxy`.

URLs are represented as `List Char` (`Chars`); Python's `list(set(...))`
deduplication, whose enumeration order is unspecified, is a parameter `pset`
constrained by `ValidSetEnum`.
-/

abbrev Chars := List Char

def cs (s : String) : Chars := s.data

/-- ASCII lowercasing of one character, as Python `str.lower` acts on ASCII. -/
def lowerChar (c : Char) : Char :=
  if 65 ≤ c.toNat ∧ c.toNat ≤ 90 then Char.ofNat (c.toNat + 32) else c

/-- ASCII letter test (`str.isalpha` restricted to ASCII, which is what the
`url[0].isascii() and url[0].isalpha()` check of `urlsplit` amounts to). -/
def isAsciiAlpha (c : Char) : Bool :=
  decide ((65 ≤ c.toNat ∧ c.toNat ≤ 90) ∨ (97 ≤ c.toNat ∧ c.toNat ≤ 122))

def isAsciiDigit (c : Char) : Bool :=
  decide (48 ≤ c.toNat ∧ c.toNat ≤ 57)

/-- The characters CPython allows in a URL scheme (`scheme_chars`). -/
def schemeChar (c : Char) : Bool :=
  isAsciiAlpha c || isAsciiDigit c || c = '+' || c = '-' || c = '.'

/-- Split a list at the first occurrence of `stop`: `(before, some after)` if
`stop` occurs, `(l, none)` otherwise.  Models Python `str.split(sep, 1)` /
`str.find`. -/
def breakAt (stop : Char) : Chars → Chars × Option Chars
  | [] => ([], none)
  | c :: rest =>
    if c = stop then ([], some rest)
    else
      let r := breakAt stop rest
      (c :: r.1, r.2)

/-- Longest prefix free of all characters in `stops`, plus the remainder.
Models CPython `_splitnetloc`. -/
def spanUntil (stops : List Char) : Chars → Chars × Chars
  | [] => ([], [])
  | c :: rest =>
    if c ∈ stops then ([], c :: rest)
    else
      let r := spanUntil stops rest
      (c :: r.1, r.2)

/-- Scheme extraction of CPython `urlsplit`: the text before the first `':'`
is a scheme iff it is nonempty, starts with an ASCII letter, and uses only
`scheme_chars`; it is lowercased. -/
def splitScheme (url : Chars) : Option (Chars × Chars) :=
  match breakAt ':' url with
  | (pre, some rest) =>
    if pre ≠ [] ∧ isAsciiAlpha (pre.headD ' ') = true ∧ pre.all schemeChar then
      some (pre.map lowerChar, rest)
    else none
  | (_, none) => none

structure UrlParts where
  scheme : Chars
  netloc : Chars
  path : Chars
  params : Chars
  query : Chars
  fragment : Chars
deriving DecidableEq, Repr

/-- The scheme stage of `urlsplit`: extracted scheme (or the default) plus
the remaining text. -/
def schemeStage (dflt url : Chars) : Chars × Chars :=
  match splitScheme url with
  | some (s, r) => (s, r)
  | none => (dflt, url)

/-- The netloc stage of `urlsplit`: `if url[:2] == '//'` then
`_splitnetloc(url, 2)`. -/
def netlocStage (rest : Chars) : Chars × Chars :=
  if rest.take 2 = cs "//" then spanUntil ['/', '?', '#'] (rest.drop 2)
  else ([], rest)

/-- The fragment stage of `urlsplit`: `url.split('#', 1)`. -/
def fragStage (rest : Chars) : Chars × Chars :=
  match breakAt '#' rest with
  | (a, some f) => (a, f)
  | (a, none) => (a, [])

/-- The query stage of `urlsplit`: `url.split('?', 1)`. -/
def queryStage (rest : Chars) : Chars × Chars :=
  match breakAt '?' rest with
  | (a, some q) => (a, q)
  | (a, none) => (a, [])

/-- Model of `urllib.parse.urlsplit url dflt` (with `allow_fragments=True`).
`params` is always empty here; `urlparse` fills it in. -/
def urlsplit (dflt : Chars) (url : Chars) : UrlParts :=
  let sr := schemeStage dflt url
  let nr := netlocStage sr.2
  let pf := fragStage nr.2
  let pq := queryStage pf.1
  ⟨sr.1, nr.1, pq.1, [], pq.2, pf.2⟩

def usesRelative : List Chars :=
  [cs "", cs "ftp", cs "http", cs "gopher", cs "nntp", cs "imap", cs "wais",
   cs "file", cs "https", cs "shttp", cs "mms", cs "prospero", cs "rtsp",
   cs "rtspu", cs "sftp", cs "svn", cs "svn+ssh", cs "ws", cs "wss"]

def usesNetloc : List Chars :=
  [cs "", cs "ftp", cs "http", cs "gopher", cs "nntp", cs "telnet", cs "imap",
   cs "wais", cs "file", cs "mms", cs "https", cs "shttp", cs "snews",
   cs "prospero", cs "rtsp", cs "rtspu", cs "rsync", cs "svn", cs "svn+ssh",
   cs "sftp", cs "nfs", cs "git", cs "git+ssh", cs "ws", cs "wss",
   cs "itms-services"]

def usesParams : List Chars :=
  [cs "", cs "ftp", cs "hdl", cs "prospero", cs "http", cs "imap", cs "https",
   cs "shttp", cs "rtsp", cs "rtspu", cs "sip", cs "sips", cs "mms", cs "sftp",
   cs "tel"]

/-- Split a path at its last `'/'`: returns `(a, b)` with `a ++ b = p`,
`'/' ∉ b`, and `a` ending in `'/'` whenever `p` contains one. -/
def splitAtLastSlash : Chars → Chars × Chars
  | [] => ([], [])
  | c :: rest =>
    if '/' ∈ rest then
      let r := splitAtLastSlash rest
      (c :: r.1, r.2)
    else if c = '/' then ([c], rest)
    else ([], c :: rest)

/-- CPython `_splitparams`: drop `;params` from the last path segment. -/
def splitparams (p : Chars) : Chars × Chars :=
  if '/' ∈ p then
    match breakAt ';' (splitAtLastSlash p).2 with
    | (b1, some b2) => ((splitAtLastSlash p).1 ++ b1, b2)
    | (_, none) => (p, [])
  else
    match breakAt ';' p with
    | (p1, some p2) => (p1, p2)
    | (_, none) => (p, [])

/-- Model of `urllib.parse.urlparse dflt url`. -/
def urlparse (dflt : Chars) (url : Chars) : UrlParts :=
  if (urlsplit dflt url).scheme ∈ usesParams ∧ ';' ∈ (urlsplit dflt url).path then
    { urlsplit dflt url with
      path := (splitparams (urlsplit dflt url).path).1,
      params := (splitparams (urlsplit dflt url).path).2 }
  else urlsplit dflt url

/-- Model of `urllib.parse.urlunsplit`. -/
def urlunsplit (scheme netloc path query fragment : Chars) : Chars :=
  let url := path
  let url :=
    if netloc ≠ [] ∨ url.take 2 = cs "//" then
      cs "//" ++ netloc ++ (if url ≠ [] ∧ url.head? ≠ some '/' then '/' :: url else url)
    else url
  let url := if scheme ≠ [] then scheme ++ ':' :: url else url
  let url := if query ≠ [] then url ++ '?' :: query else url
  if fragment ≠ [] then url ++ '#' :: fragment else url

/-- Model of `urllib.parse.urlunparse`. -/
def urlunparse (u : UrlParts) : Chars :=
  let path := if u.params ≠ [] then u.path ++ ';' :: u.params else u.path
  urlunsplit u.scheme u.netloc path u.query u.fragment

def splitSlashAux : Chars → Chars → List Chars
  | [], acc => [acc.reverse]
  | c :: rest, acc =>
    if c = '/' then acc.reverse :: splitSlashAux rest []
    else splitSlashAux rest (c :: acc)

/-- Python `p.split('/')`. -/
def splitSlash (p : Chars) : List Chars := splitSlashAux p []

/-- Python `'/'.join`. -/
def joinSlash : List Chars → Chars
  | [] => []
  | [a] => a
  | a :: rest => a ++ '/' :: joinSlash rest

/-- CPython `urljoin`'s `segments[1:-1] = filter(None, segments[1:-1])`. -/
def filterMiddle : List Chars → List Chars
  | [] => []
  | [a] => [a]
  | a :: rest => a :: ((rest.dropLast.filter (fun s => s ≠ [])) ++ [rest.getLastD []])

/-- The merged-and-resolved path of `urljoin`'s relative branch:
`base_parts`/`segments` assembly, dot-segment resolution, rejoining. -/
def resolvePath (bpath upath : Chars) : Chars :=
  let baseParts := splitSlash bpath
  let baseParts := if baseParts.getLastD [] ≠ [] then baseParts.dropLast else baseParts
  let segments :=
    if upath.head? = some '/' then splitSlash upath
    else filterMiddle (baseParts ++ splitSlash upath)
  let resolved := segments.foldl
    (fun acc seg =>
      if seg = cs ".." then acc.dropLast
      else if seg = cs "." then acc
      else acc ++ [seg])
    []
  let resolved :=
    if segments.getLastD [] = cs ".." ∨ segments.getLastD [] = cs "." then
      resolved ++ [[]]
    else resolved
  let newpath := joinSlash resolved
  if newpath = [] then cs "/" else newpath

/-- `urljoin` after the same-scheme check: the netloc adoption, the
empty-path shortcut, and the relative-path resolution, each ending in
`urlunparse`. -/
def urljoinTail (b u : UrlParts) : Chars :=
  if u.scheme ∈ usesNetloc ∧ u.netloc ≠ [] then
    urlunparse ⟨u.scheme, u.netloc, u.path, u.params, u.query, u.fragment⟩
  else if u.path = [] ∧ u.params = [] then
    urlunparse ⟨u.scheme, (if u.scheme ∈ usesNetloc then b.netloc else u.netloc),
      b.path, b.params, (if u.query = [] then b.query else u.query), u.fragment⟩
  else
    urlunparse ⟨u.scheme, (if u.scheme ∈ usesNetloc then b.netloc else u.netloc),
      resolvePath b.path u.path, u.params, u.query, u.fragment⟩

/-- Model of `urllib.parse.urljoin` (CPython 3.11). -/
def urljoin (base url : Chars) : Chars :=
  if base = [] then url
  else if url = [] then base
  else
    if (urlparse (urlparse [] base).scheme url).scheme ≠ (urlparse [] base).scheme
        ∨ (urlparse (urlparse [] base).scheme url).scheme ∉ usesRelative then url
    else urljoinTail (urlparse [] base) (urlparse (urlparse [] base).scheme url)

/-!
## Link extraction and URL normalization (`Crawler.extract_links`)
-/

/-- The href filter applied inside the `page.evaluate` script of
`extract_links`: keep truthy hrefs not starting with `javascript:` or
`mailto:`. -/
def jsKeep (href : Chars) : Bool :=
  href ≠ [] ∧ ¬ (cs "javascript:").isPrefixOf href ∧ ¬ (cs "mailto:").isPrefixOf href

/-- The normalized form built by `extract_links`:
`f"{scheme}://{netloc}{path}"` plus `?query` when the query is nonempty
(fragment and params stripped). -/
def normalizeOf (p : UrlParts) : Chars :=
  p.scheme ++ cs "://" ++ p.netloc ++ p.path ++
    (if p.query ≠ [] then '?' :: p.query else [])

/-- `extract_links`' full normalization of one href against the page URL:
resolve with `urljoin`, re-parse, rebuild without fragment/params. -/
def normalizeUrl (base_url link : Chars) : Chars :=
  normalizeOf (urlparse [] (urljoin base_url link))

/-- The `filtered_links` list of `extract_links`, in insertion
(discovery) order, before the `list(set(...))` deduplication. -/
def orderedFilteredLinks (base_url : Chars) (links : List Chars) : List Chars :=
  let parsed_base := urlparse [] base_url
  links.foldl
    (fun acc link =>
      let parsed := urlparse [] (urljoin base_url link)
      if parsed.netloc = parsed_base.netloc then acc ++ [normalizeOf parsed]
      else acc)
    []

/-- Validity of a model of Python's `list(set(xs))`: the result enumerates
the distinct elements of `xs`, each exactly once, in an unspecified order. -/
def ValidSetEnum (pset : List Chars → List Chars) : Prop :=
  ∀ l : List Chars, (pset l).Nodup ∧ ∀ x, x ∈ pset l ↔ x ∈ l

def dedupFirstAux : List Chars → List Chars → List Chars
  | [], _ => []
  | x :: rest, seen =>
    if x ∈ seen then dedupFirstAux rest seen
    else x :: dedupFirstAux rest (x :: seen)

/-- First-occurrence deduplication: one admissible `list(set(...))` order. -/
def dedupKeepFirst (l : List Chars) : List Chars := dedupFirstAux l []

/-- `Crawler.extract_links`, parameterized by the set-enumeration order
`pset` used for `list(set(filtered_links))`.  `hrefs` are the raw `a.href`
values found on the page; the page object itself is irrelevant. -/
def extract_links (pset : List Chars → List Chars) (hrefs : List Chars)
    (base_url : Chars) : List Chars :=
  pset (orderedFilteredLinks base_url (hrefs.filter jsKeep))

/-!
## The crawl state machine (`Crawler.crawl_page` / `Crawler.crawl`)

The browser is an environment `env : Chars → PageOutcome`: navigating to a
URL either raises (`navErr`, caught by the `except` clause of `crawl_page`)
or renders a page with an extraction record (abstracted to a `Nat` payload)
and a list of raw hrefs.  Ghost fields (`sleeps`, `navLog`, `enqueueLog`)
record the observable side effects the claims speak about; they do not
influence control flow.
-/

inductive PageOutcome where
  | ok (rec : Nat) (hrefs : List Chars)
  | navErr
deriving DecidableEq, Repr

structure CrawlState where
  /-- `self.visited_urls` (a Python set; kept as an insertion-ordered list,
  only ever extended with elements not yet present). -/
  visited : List Chars
  /-- `self.data`, the list of extraction records. -/
  data : List Nat
  /-- Ghost: number of `time.sleep(self.request_interval)` calls performed. -/
  sleeps : Nat
  /-- Ghost: URLs that passed the entry guard of `crawl_page` (navigations
  attempted), in order. -/
  navLog : List Chars
  /-- Ghost: URLs appended to the `urls_to_crawl` frontier, in order. -/
  enqueueLog : List Chars
  /-- `save_data` output: `some records` once `crawl` has persisted. -/
  savedData : Option (List Nat)
deriving DecidableEq, Repr

def initState : CrawlState := ⟨[], [], 0, [], [], none⟩

structure Config where
  max_depth : Nat
  max_pages : Nat
deriving DecidableEq, Repr

/-- `Crawler.crawl_page` (crawler.py lines 167-219): entry guards, mark
visited before navigating, try-navigate/extract, link discovery only below
`max_depth`, and the `time.sleep` that is reached only when the early
`return` inside the `try` block is not taken. -/
def crawl_page (env : Chars → PageOutcome) (pset : List Chars → List Chars)
    (cfg : Config) (s : CrawlState) (url : Chars) (depth : Nat) :
    CrawlState × List Chars :=
  if url ∈ s.visited then (s, [])
  else if cfg.max_pages ≤ s.visited.length then (s, [])
  else if cfg.max_depth < depth then (s, [])
  else
    let s1 := { s with visited := s.visited ++ [url], navLog := s.navLog ++ [url] }
    match env url with
    | .navErr => ({ s1 with sleeps := s1.sleeps + 1 }, [])
    | .ok rec hrefs =>
      let s2 := { s1 with data := s1.data ++ [rec] }
      if depth < cfg.max_depth then
        (s2, (extract_links pset hrefs url).filter (fun l => l ∉ s2.visited))
      else
        ({ s2 with sleeps := s2.sleeps + 1 }, [])

/-- One depth level of `Crawler.crawl`'s `for url in current_urls` loop:
skip visited/over-budget URLs, otherwise run `crawl_page` and extend the
next level with the returned links. -/
def processLevel (env : Chars → PageOutcome) (pset : List Chars → List Chars)
    (cfg : Config) (s : CrawlState) :
    List Chars → Nat → CrawlState × List Chars
  | [], _ => (s, [])
  | url :: rest, depth =>
    if url ∈ s.visited ∨ cfg.max_pages ≤ s.visited.length then
      processLevel env pset cfg s rest depth
    else
      let r := crawl_page env pset cfg s url depth
      let r2 := processLevel env pset cfg r.1 rest depth
      (r2.1, r.2 ++ r2.2)

/-- The `while urls_to_crawl and len(self.visited_urls) < self.max_pages`
loop of `Crawler.crawl`.  The `fuel` argument is structural bookkeeping
only: the Python loop increments `current_depth` each iteration and breaks
as soon as it exceeds `max_depth`, so with `fuel = max_depth + 2 - depth`
the fuel never runs out before that break fires. -/
def crawlLoop (env : Chars → PageOutcome) (pset : List Chars → List Chars)
    (cfg : Config) : Nat → CrawlState → List Chars → Nat → CrawlState
  | 0, s, _, _ => s
  | fuel + 1, s, urls, depth =>
    if urls = [] ∨ cfg.max_pages ≤ s.visited.length then s
    else
      let r := processLevel env pset cfg s urls depth
      let s2 := { r.1 with enqueueLog := r.1.enqueueLog ++ r.2 }
      if cfg.max_depth < depth + 1 then s2
      else crawlLoop env pset cfg fuel s2 r.2 (depth + 1)

/-- `Crawler.crawl`: seed the frontier with the start URL, run the
breadth-first loop, then persist via `save_data`.  The crawler state is the
instance state (`self.visited_urls` / `self.data`), which `crawl` never
resets. -/
def crawl (env : Chars → PageOutcome) (pset : List Chars → List Chars)
    (cfg : Config) (s : CrawlState) (start_url : Chars) : CrawlState :=
  let s0 := { s with enqueueLog := s.enqueueLog ++ [start_url] }
  let s1 := crawlLoop env pset cfg (cfg.max_depth + 2) s0 [start_url] 0
  { s1 with savedData := some s1.data }

/-!
## The `AdvancedCrawler` proxy rotation (`examples/advanced_crawl.py`)

Proxies are abstracted to `Nat` labels (the crawler only compares them for
equality via `list.index` / `in`).  Browser contexts and pages are `Nat`
identifiers in a small heap `RotHeap`; `_rotate_proxy` receives the page
identifier by value, exactly as Python passes the object reference, so its
final `page = new_page` assignment rebinds only the function-local name —
modelled by the function returning that local value and the caller
discarding it.  `utils.is_robots_allowed` is the constant `true` of the
source, so the robots guard never skips a page.
-/

def is_robots_allowed (_url : Chars) (_ua : Nat) : Bool := true

structure RotHeap where
  nextId : Nat
  /-- `page.context`: association from page id to owning context id. -/
  pageCtx : List (Nat × Nat)
  /-- Contexts on which `.close()` has been called. -/
  closedCtxs : List Nat
deriving DecidableEq, Repr

def ctxOf (h : RotHeap) (page : Nat) : Nat :=
  ((h.pageCtx.find? (fun pr => pr.1 = page)).map Prod.snd).getD 0

structure AdvState where
  heap : RotHeap
  /-- `self.proxy` (the ActiveIdentity cell). -/
  proxy : Option Nat
  /-- `self.proxy_rotation_counter`. -/
  counter : Nat
  /-- Ghost: `self.proxy` in effect when each page is handed to the base
  `crawl_page` (the active-identity sequence). -/
  identLog : List (Option Nat)
  /-- Ghost: value of the rotation counter after each processed page. -/
  counterLog : List Nat
  /-- Ghost: page object ids actually used for navigation, in order. -/
  navLog : List Nat
deriving DecidableEq, Repr

/-- `AdvancedCrawler._rotate_proxy` (advanced_crawl.py lines 97-127): close
the current context, advance `self.proxy` round-robin, create a new context
and page — and finally rebind the local variable `page`, whose value is
returned here only so the caller can be seen to discard it (the Python
method returns `None`). -/
def rotate_proxy (proxies : List Nat) (st : AdvState) (page : Nat) :
    AdvState × Nat :=
  let context := ctxOf st.heap page
  let i : Nat :=
    match st.proxy with
    | some p => if p ∈ proxies then (proxies.indexOf p + 1) % proxies.length else 0
    | none => 0
  let newProxy := proxies[i]?
  let new_context := st.heap.nextId
  let new_page := st.heap.nextId + 1
  let h1 : RotHeap :=
    { nextId := st.heap.nextId + 2,
      pageCtx := st.heap.pageCtx ++ [(new_page, new_context)],
      closedCtxs := st.heap.closedCtxs ++ [context] }
  let page := new_page
  ({ st with heap := h1, proxy := newProxy }, page)

/-- `AdvancedCrawler.crawl_page` (lines 69-95) on a fresh, in-budget URL:
robots check (always allowed), rotation after every 10 requests with the
counter reset right after rotating, counter increment, then the base
`crawl_page`, whose navigation uses the caller's `page` binding — which
`_rotate_proxy` cannot have changed. -/
def adv_crawl_page (proxies : List Nat) (st : AdvState) (page : Nat) : AdvState :=
  if ¬ is_robots_allowed [] 0 then st
  else
    let st :=
      if proxies ≠ [] ∧ 10 ≤ st.counter then
        let r := rotate_proxy proxies st page
        { r.1 with counter := 0 }
      else st
    let st := { st with counter := st.counter + 1 }
    { st with
      identLog := st.identLog ++ [st.proxy],
      counterLog := st.counterLog ++ [st.counter],
      navLog := st.navLog ++ [page] }

/-- `n` successive `AdvancedCrawler.crawl_page` calls on fresh URLs; the
orchestrating `Crawler.crawl` holds a single `page` variable that it never
reassigns (crawler.py lines 232 and 251), so the same page id is passed
every time. -/
def advRun (proxies : List Nat) (page : Nat) : Nat → AdvState → AdvState
  | 0, st => st
  | n + 1, st => advRun proxies page n (adv_crawl_page proxies st page)

/-- Initial `AdvancedCrawler` state: `self.proxy = proxies[0] if proxies
else None`, counter 0, and one browser context `0` owning one page `1`
(from `_get_browser_context` / `context.new_page()`). -/
def advInit (proxies : List Nat) : AdvState :=
  { heap := { nextId := 2, pageCtx := [(1, 0)], closedCtxs := [] },
    proxy := proxies[0]?,
    counter := 0,
    identLog := [], counterLog := [], navLog := [] }

/-!
## Predicates and fixtures referred to by the claim theorems
-/

/-- A site where the start page links to `a` and `b`, which both link to the
same undiscovered page `c`. -/
def envTwoParents : Chars → PageOutcome := fun u =>
  if u = cs "http://h/" then .ok 0 [cs "http://h/a", cs "http://h/b"]
  else if u = cs "http://h/a" then .ok 1 [cs "http://h/c"]
  else if u = cs "http://h/b" then .ok 2 [cs "http://h/c"]
  else .ok 3 []

/-- A site where only the start page exists; everything else fails to load. -/
def envOnePage : Chars → PageOutcome := fun u =>
  if u = cs "http://h/" then .ok 0 [cs "http://h/a"] else .navErr

/-- A site where the start page links to `a` then `b` (discovered in that
order), both of which render with no further links. -/
def envTwoKids : Chars → PageOutcome := fun u =>
  if u = cs "http://h/" then .ok 0 [cs "http://h/a", cs "http://h/b"] else .ok 1 []

/-- A site where every navigation raises. -/
def envAllFail : Chars → PageOutcome := fun _ => .navErr

/-- Another admissible enumeration order for Python's `list(set(...))`:
the distinct elements in reverse discovery order. -/
def psetRev (l : List Chars) : List Chars := (dedupKeepFirst l).reverse

/-- What `urlsplit` guarantees about any scheme it extracts explicitly:
nonempty, ASCII-letter-initial, built from `scheme_chars`, lowercase. -/
def GoodScheme (sc : Chars) : Prop :=
  sc ≠ [] ∧ isAsciiAlpha (sc.headD ' ') = true ∧ sc.all schemeChar = true
  ∧ sc.map lowerChar = sc

/-- The base URL of a crawled page: an absolute `http(s)` URL with a host. -/
def WfHttpBase (base : Chars) : Prop :=
  ((urlparse [] base).scheme = cs "http" ∨ (urlparse [] base).scheme = cs "https")
  ∧ (urlparse [] base).netloc ≠ []

/-- `p` has no params left for scheme `sc`: re-running the params split of
`urlparse` on `p` is the identity. -/
def ParamsClean (sc p : Chars) : Prop :=
  (sc ∈ usesParams ∧ ';' ∈ p) → splitparams p = (p, [])

/-- Structural invariants guaranteed for every output of `urlparse`:
the netloc holds no `/?#`, the path no `?#`, the query and params no `#`,
the params no `?` and no `/`, and with a nonempty netloc the path is empty
or absolute. -/
def ParseInv (P : UrlParts) : Prop :=
  (∀ c ∈ P.netloc, c ≠ '/' ∧ c ≠ '?' ∧ c ≠ '#')
  ∧ ('?' ∉ P.path ∧ '#' ∉ P.path)
  ∧ '#' ∉ P.query
  ∧ (P.netloc ≠ [] → P.path = [] ∨ P.path.head? = some '/')
  ∧ ('#' ∉ P.params ∧ '?' ∉ P.params ∧ '/' ∉ P.params)

/-!
## Sanity examples (checked against CPython and a hand trace of the source)
-/

-- Sanity checks against CPython behaviour.
example : urljoin (cs "http://example.com/a/b") (cs "../c") = cs "http://example.com/c" := by
  decide

example : urljoin (cs "http://example.com/a/") (cs "d") = cs "http://example.com/a/d" := by
  decide

example : urljoin (cs "http://example.com/") (cs "ftp://example.com/x")
    = cs "ftp://example.com/x" := by decide

example : urljoin (cs "http://h/a") (cs "tel:+123") = cs "tel:+123" := by decide

example : urljoin (cs "http://h/a") (cs "#frag") = cs "http://h/a#frag" := by decide

example : urljoin (cs "http://h/a/b") (cs "?q=1") = cs "http://h/a/b?q=1" := by decide

example : urlparse [] (cs "http://h/a/b;px?q=1#f")
    = ⟨cs "http", cs "h", cs "/a/b", cs "px", cs "q=1", cs "f"⟩ := by decide

example : extract_links dedupKeepFirst
    [cs "http://h/a", cs "javascript:void(0)", cs "mailto:x@y", cs "tel:+123",
     cs "http://other.org/z", cs "b", cs "http://h/a#frag"]
    (cs "http://h/index.html")
    = [cs "http://h/a", cs "http://h/b"] := by decide

-- A run in which the start page links to two pages that both link to a
-- common third page (used below when settling the frontier claims).
example :
    (crawl
      (fun u =>
        if u = cs "http://h/" then .ok 0 [cs "http://h/a", cs "http://h/b"]
        else if u = cs "http://h/a" then .ok 1 [cs "http://h/c"]
        else if u = cs "http://h/b" then .ok 2 [cs "http://h/c"]
        else .ok 3 [])
      dedupKeepFirst ⟨2, 10⟩ initState (cs "http://h/")).visited
    = [cs "http://h/", cs "http://h/a", cs "http://h/b", cs "http://h/c"] := by
  decide

example :
    (advRun [7, 8] 1 11 (advInit [7, 8])).identLog
      = List.replicate 10 (some 7) ++ [some 8] := by decide

example : (advRun [7, 8] 1 11 (advInit [7, 8])).heap.closedCtxs = [0] := by decide

/-!
## Helper lemmas: characters
-/

theorem isValidChar_of_lt {n : Nat} (h : n < 55296) : n.isValidChar := Or.inl h

theorem toNat_ofNat_valid (n : Nat) (h : n < 55296) : (Char.ofNat n).toNat = n := by
  unfold Char.ofNat
  rw [dif_pos (isValidChar_of_lt h)]
  rfl

theorem lowerChar_toNat (c : Char) :
    (lowerChar c).toNat = if 65 ≤ c.toNat ∧ c.toNat ≤ 90 then c.toNat + 32 else c.toNat := by
  unfold lowerChar
  split_ifs with h
  · exact toNat_ofNat_valid _ (by omega)
  · rfl

theorem lowerChar_eq_self (c : Char) (h : ¬ (65 ≤ c.toNat ∧ c.toNat ≤ 90)) :
    lowerChar c = c := by
  unfold lowerChar
  rw [if_neg h]

theorem lowerChar_idem (c : Char) : lowerChar (lowerChar c) = lowerChar c := by
  by_cases h : 65 ≤ c.toNat ∧ c.toNat ≤ 90
  · apply lowerChar_eq_self
    rw [lowerChar_toNat, if_pos h]
    omega
  · simp [lowerChar_eq_self c h]

theorem isAsciiAlpha_lowerChar (c : Char) (h : isAsciiAlpha c = true) :
    isAsciiAlpha (lowerChar c) = true := by
  simp only [isAsciiAlpha, decide_eq_true_eq] at h ⊢
  rw [lowerChar_toNat]
  split_ifs with h2 <;> omega

theorem schemeChar_lowerChar (c : Char) (h : schemeChar c = true) :
    schemeChar (lowerChar c) = true := by
  simp only [schemeChar, Bool.or_eq_true, decide_eq_true_eq] at h ⊢
  rcases h with (((h | h) | h) | h) | h
  · exact Or.inl (Or.inl (Or.inl (Or.inl (isAsciiAlpha_lowerChar c h))))
  · simp only [isAsciiDigit, decide_eq_true_eq] at h
    rw [lowerChar_eq_self c (by omega)]
    refine Or.inl (Or.inl (Or.inl (Or.inr ?_)))
    simp [isAsciiDigit]
    omega
  · subst h
    rw [lowerChar_eq_self _ (by decide)]
    exact Or.inl (Or.inl (Or.inr rfl))
  · subst h
    rw [lowerChar_eq_self _ (by decide)]
    exact Or.inl (Or.inr rfl)
  · subst h
    rw [lowerChar_eq_self _ (by decide)]
    exact Or.inr rfl

theorem schemeChar_ne (c : Char) (h : schemeChar c = true) :
    c ≠ ':' ∧ c ≠ '/' ∧ c ≠ '?' ∧ c ≠ '#' ∧ c ≠ ';' := by
  refine ⟨?_, ?_, ?_, ?_, ?_⟩ <;> rintro rfl <;> revert h <;> decide

/-!
## Helper lemmas: splitting functions
-/

theorem breakAt_not_mem (stop : Char) (l : Chars) (h : stop ∉ l) :
    breakAt stop l = (l, none) := by
  induction l with
  | nil => rfl
  | cons c rest ih =>
    simp only [List.mem_cons, not_or] at h
    have h1 : ¬ (c = stop) := fun e => h.1 e.symm
    simp [breakAt, h1, ih h.2]

theorem breakAt_append (stop : Char) (a b : Chars) (h : stop ∉ a) :
    breakAt stop (a ++ stop :: b) = (a, some b) := by
  induction a with
  | nil => simp [breakAt]
  | cons c rest ih =>
    simp only [List.mem_cons, not_or] at h
    have h1 : ¬ (c = stop) := fun e => h.1 e.symm
    simp [breakAt, h1, ih h.2]

theorem breakAt_spec (stop : Char) (l : Chars) :
    (stop ∉ l ∧ breakAt stop l = (l, none))
    ∨ (∃ a b, stop ∉ a ∧ l = a ++ stop :: b ∧ breakAt stop l = (a, some b)) := by
  induction l with
  | nil => left; simp [breakAt]
  | cons c rest ih =>
    by_cases hc : c = stop
    · subst hc
      right
      exact ⟨[], rest, by simp, by simp, by simp [breakAt]⟩
    · have hc1 : ¬ (stop = c) := fun e => hc e.symm
      rcases ih with ⟨h1, h2⟩ | ⟨a, b, h1, h2, h3⟩
      · left
        refine ⟨by simp [hc1, h1], by simp [breakAt, hc, h2]⟩
      · right
        refine ⟨c :: a, b, by simp [hc1, h1], by simp [h2], by simp [breakAt, hc, h3]⟩

theorem spanUntil_spec (stops : List Char) (l : Chars) :
    (spanUntil stops l).1 ++ (spanUntil stops l).2 = l
    ∧ (∀ c ∈ (spanUntil stops l).1, c ∉ stops)
    ∧ ((spanUntil stops l).2 = []
       ∨ ∃ c t, (spanUntil stops l).2 = c :: t ∧ c ∈ stops) := by
  induction l with
  | nil => simp [spanUntil]
  | cons c rest ih =>
    by_cases hc : c ∈ stops
    · simp [spanUntil, hc]
    · simp only [spanUntil, if_neg hc]
      refine ⟨by simp [ih.1], ?_, ?_⟩
      · intro x hx
        rcases List.mem_cons.mp hx with rfl | hx
        · exact hc
        · exact ih.2.1 x hx
      · exact ih.2.2

theorem spanUntil_append (stops : List Char) (a t : Chars) (h : ∀ c ∈ a, c ∉ stops) :
    spanUntil stops (a ++ t) = (a ++ (spanUntil stops t).1, (spanUntil stops t).2) := by
  induction a with
  | nil => simp
  | cons c rest ih =>
    have hc := h c (by simp)
    simp [spanUntil, hc, ih (fun x hx => h x (by simp [hx]))]

/-!
## Helper lemmas: deduplication
-/

theorem mem_dedupFirstAux (l : List Chars) :
    ∀ (seen : List Chars) (x : Chars),
      x ∈ dedupFirstAux l seen ↔ x ∈ l ∧ x ∉ seen := by
  induction l with
  | nil => intro seen x; simp [dedupFirstAux]
  | cons y rest ih =>
    intro seen x
    by_cases hy : y ∈ seen
    · rw [show dedupFirstAux (y :: rest) seen = dedupFirstAux rest seen by
        simp [dedupFirstAux, hy]]
      rw [ih]
      constructor
      · rintro ⟨h1, h2⟩
        exact ⟨List.mem_cons_of_mem y h1, h2⟩
      · rintro ⟨h1, h2⟩
        rcases List.mem_cons.mp h1 with rfl | h1
        · exact absurd hy h2
        · exact ⟨h1, h2⟩
    · rw [show dedupFirstAux (y :: rest) seen = y :: dedupFirstAux rest (y :: seen) by
        simp [dedupFirstAux, hy]]
      constructor
      · intro hx
        rcases List.mem_cons.mp hx with rfl | hx
        · exact ⟨List.mem_cons_self _ _, hy⟩
        · rcases (ih (y :: seen) x).mp hx with ⟨h1, h2⟩
          simp only [List.mem_cons, not_or] at h2
          exact ⟨List.mem_cons_of_mem y h1, h2.2⟩
      · rintro ⟨h1, h2⟩
        by_cases hxy : x = y
        · exact hxy ▸ List.mem_cons_self _ _
        · rcases List.mem_cons.mp h1 with rfl | h1
          · exact absurd rfl hxy
          · refine List.mem_cons_of_mem y ((ih (y :: seen) x).mpr ⟨h1, ?_⟩)
            simp only [List.mem_cons, not_or]
            exact ⟨hxy, h2⟩

theorem nodup_dedupFirstAux (l : List Chars) :
    ∀ seen : List Chars, (dedupFirstAux l seen).Nodup := by
  induction l with
  | nil => intro seen; simp [dedupFirstAux]
  | cons y rest ih =>
    intro seen
    by_cases hy : y ∈ seen
    · simpa [dedupFirstAux, hy] using ih seen
    · rw [show dedupFirstAux (y :: rest) seen = y :: dedupFirstAux rest (y :: seen) by
        simp [dedupFirstAux, hy]]
      refine List.nodup_cons.mpr ⟨?_, ih (y :: seen)⟩
      intro hmem
      rcases (mem_dedupFirstAux rest (y :: seen) y).mp hmem with ⟨_, h2⟩
      exact h2 (List.mem_cons_self _ _)

theorem validSetEnum_dedupKeepFirst : ValidSetEnum dedupKeepFirst := by
  intro l
  refine ⟨nodup_dedupFirstAux l [], fun x => ?_⟩
  simpa using mem_dedupFirstAux l [] x

theorem validSetEnum_psetRev : ValidSetEnum psetRev := by
  intro l
  have h := validSetEnum_dedupKeepFirst l
  refine ⟨by simpa [psetRev, List.nodup_reverse] using h.1, fun x => ?_⟩
  simp only [psetRev, List.mem_reverse]
  exact h.2 x

/-!
## Helper lemmas: the crawl state machine
-/

/-- Every call to `crawl_page` either takes one of the three guard exits and
returns `(s, [])`, or marks the fresh, in-budget, in-depth URL as visited and
navigates, appending at most one record, returning only unvisited links. -/
theorem crawl_page_shape (env : Chars → PageOutcome) (pset : List Chars → List Chars)
    (cfg : Config) (s : CrawlState) (url : Chars) (depth : Nat) :
    (crawl_page env pset cfg s url depth = (s, [])
      ∧ (url ∈ s.visited ∨ cfg.max_pages ≤ s.visited.length ∨ cfg.max_depth < depth))
    ∨ (url ∉ s.visited ∧ s.visited.length < cfg.max_pages ∧ depth ≤ cfg.max_depth
       ∧ ∃ d2 sl2 links,
         crawl_page env pset cfg s url depth =
           ({ visited := s.visited ++ [url], data := s.data ++ d2,
              sleeps := s.sleeps + sl2, navLog := s.navLog ++ [url],
              enqueueLog := s.enqueueLog, savedData := s.savedData }, links)
         ∧ (∀ l ∈ links, l ∉ s.visited ++ [url])
         ∧ d2.length ≤ 1) := by
  by_cases h1 : url ∈ s.visited
  · exact Or.inl ⟨by simp [crawl_page, h1], Or.inl h1⟩
  by_cases h2 : cfg.max_pages ≤ s.visited.length
  · exact Or.inl ⟨by simp [crawl_page, h1, h2], Or.inr (Or.inl h2)⟩
  by_cases h3 : cfg.max_depth < depth
  · exact Or.inl ⟨by simp [crawl_page, h1, h2, h3], Or.inr (Or.inr h3)⟩
  right
  refine ⟨h1, by omega, by omega, ?_⟩
  rcases henv : env url with ⟨rec, hrefs⟩ | _
  · by_cases hd : depth < cfg.max_depth
    · refine ⟨[rec], 0, (extract_links pset hrefs url).filter
        (fun l => l ∉ s.visited ++ [url]), ?_, ?_, by simp⟩
      · simp [crawl_page, h1, h2, h3, henv, hd]
      · intro l hl
        exact of_decide_eq_true (List.mem_filter.mp hl).2
    · refine ⟨[rec], 1, [], ?_, by simp, by simp⟩
      simp [crawl_page, h1, h2, h3, henv, hd]
  · refine ⟨[], 1, [], ?_, by simp, by simp⟩
    simp [crawl_page, h1, h2, h3, henv]

/-- `processLevel` preserves any state property that every `crawl_page` call
preserves. -/
theorem processLevel_pres (P : CrawlState → Prop) (env : Chars → PageOutcome)
    (pset : List Chars → List Chars) (cfg : Config)
    (hp : ∀ s url depth, P s → P (crawl_page env pset cfg s url depth).1) :
    ∀ (urls : List Chars) (depth : Nat) (s : CrawlState),
      P s → P (processLevel env pset cfg s urls depth).1 := by
  intro urls
  induction urls with
  | nil => intro depth s hs; exact hs
  | cons url rest ih =>
    intro depth s hs
    unfold processLevel
    split_ifs with h
    · exact ih depth s hs
    · exact ih depth _ (hp s url depth hs)

/-- `crawlLoop` preserves any state property that `crawl_page` preserves and
that does not depend on the `enqueueLog` ghost field. -/
theorem crawlLoop_pres (P : CrawlState → Prop) (env : Chars → PageOutcome)
    (pset : List Chars → List Chars) (cfg : Config)
    (hp : ∀ s url depth, P s → P (crawl_page env pset cfg s url depth).1)
    (henq : ∀ (s : CrawlState) (d : List Chars),
      P s → P { s with enqueueLog := s.enqueueLog ++ d }) :
    ∀ (fuel : Nat) (s : CrawlState) (urls : List Chars) (depth : Nat),
      P s → P (crawlLoop env pset cfg fuel s urls depth) := by
  intro fuel
  induction fuel with
  | zero => intro s urls depth hs; exact hs
  | succ n ih =>
    intro s urls depth hs
    unfold crawlLoop
    split_ifs with h1 h2
    · exact hs
    · exact henq _ _ (processLevel_pres P env pset cfg hp urls depth s hs)
    · exact ih _ _ _ (henq _ _ (processLevel_pres P env pset cfg hp urls depth s hs))

/-- `crawl` preserves any state property that `crawl_page` preserves, that
ignores the `enqueueLog` ghost field, and that survives persistence. -/
theorem crawl_pres (P : CrawlState → Prop) (env : Chars → PageOutcome)
    (pset : List Chars → List Chars) (cfg : Config)
    (hp : ∀ s url depth, P s → P (crawl_page env pset cfg s url depth).1)
    (henq : ∀ (s : CrawlState) (d : List Chars),
      P s → P { s with enqueueLog := s.enqueueLog ++ d })
    (hsave : ∀ s : CrawlState, P s → P { s with savedData := some s.data }) :
    ∀ (s : CrawlState) (u : Chars), P s → P (crawl env pset cfg s u) := by
  intro s u hs
  unfold crawl
  exact hsave _ (crawlLoop_pres P env pset cfg hp henq _ _ _ _ (henq s [u] hs))

theorem crawl_page_budget (env : Chars → PageOutcome) (pset : List Chars → List Chars)
    (cfg : Config) (s : CrawlState) (url : Chars) (depth : Nat)
    (h : s.visited.length ≤ cfg.max_pages) :
    (crawl_page env pset cfg s url depth).1.visited.length ≤ cfg.max_pages := by
  rcases crawl_page_shape env pset cfg s url depth with ⟨heq, _⟩ |
    ⟨_, hlen, _, d2, sl2, links, heq, _, _⟩
  · rw [heq]; exact h
  · rw [heq]
    show (s.visited ++ [url]).length ≤ cfg.max_pages
    simp only [List.length_append, List.length_cons, List.length_nil]
    omega

theorem crawl_page_navInv (env : Chars → PageOutcome) (pset : List Chars → List Chars)
    (cfg : Config) (s : CrawlState) (url : Chars) (depth : Nat)
    (h : s.navLog.Nodup ∧ ∀ x ∈ s.navLog, x ∈ s.visited) :
    (crawl_page env pset cfg s url depth).1.navLog.Nodup
    ∧ ∀ x ∈ (crawl_page env pset cfg s url depth).1.navLog,
        x ∈ (crawl_page env pset cfg s url depth).1.visited := by
  rcases crawl_page_shape env pset cfg s url depth with ⟨heq, _⟩ |
    ⟨hu, _, _, d2, sl2, links, heq, _, _⟩
  · rw [heq]; exact h
  · rw [heq]
    constructor
    · show (s.navLog ++ [url]).Nodup
      rw [List.nodup_append]
      refine ⟨h.1, List.nodup_singleton url, ?_⟩
      intro x hx hy
      have hxu : x = url := List.mem_singleton.mp hy
      subst hxu
      exact hu (h.2 x hx)
    · show ∀ x ∈ s.navLog ++ [url], x ∈ s.visited ++ [url]
      intro x hx
      rcases List.mem_append.mp hx with hx | hx
      · exact List.mem_append_left _ (h.2 x hx)
      · exact List.mem_append_right _ hx

theorem crawlLoop_stop (env : Chars → PageOutcome) (pset : List Chars → List Chars)
    (cfg : Config) (fuel : Nat) (s : CrawlState) (urls : List Chars) (depth : Nat)
    (h : urls = [] ∨ cfg.max_pages ≤ s.visited.length) :
    crawlLoop env pset cfg fuel s urls depth = s := by
  cases fuel with
  | zero => rfl
  | succ n =>
    unfold crawlLoop
    rw [if_pos h]

theorem crawl_savedData_eq (env : Chars → PageOutcome) (pset : List Chars → List Chars)
    (cfg : Config) (s : CrawlState) (u : Chars) :
    (crawl env pset cfg s u).savedData = some ((crawl env pset cfg s u).data) := rfl

/-!
## Claim C1
-/

/-- C1 [counterexample]: in the crawl of `envTwoParents` (start page links
to `a` and `b`; both link to the undiscovered `c`) the URL `http://h/c` is
appended to the `urls_to_crawl` frontier twice — once by each page of the
same level — because `crawl_page` marks URLs visited when *processing*
them, not when enqueueing them.  So "every URL is enqueued into the
frontier at most once" is false as stated. -/
theorem C1_counterexample_url_enqueued_twice :
    ((crawl envTwoParents dedupKeepFirst ⟨2, 10⟩ initState
        (cs "http://h/")).enqueueLog).count (cs "http://h/c") = 2
    ∧ ¬ ((crawl envTwoParents dedupKeepFirst ⟨2, 10⟩ initState
        (cs "http://h/")).enqueueLog).Nodup := by
  decide

/-- C1 (amended): a URL can be enqueued once per page that discovers it
within a level, but every URL is *processed* (navigated) at most once per
crawl: the visited check and visited-marking at the top of `crawl_page`
keep the navigation log duplicate-free, and every navigated URL is in the
visited set. -/
theorem C1_amended_each_url_processed_at_most_once
    (env : Chars → PageOutcome) (pset : List Chars → List Chars) (cfg : Config)
    (s : CrawlState) (u : Chars)
    (h1 : s.navLog.Nodup) (h2 : ∀ x ∈ s.navLog, x ∈ s.visited) :
    (crawl env pset cfg s u).navLog.Nodup
    ∧ ∀ x ∈ (crawl env pset cfg s u).navLog, x ∈ (crawl env pset cfg s u).visited := by
  exact crawl_pres
    (fun st => st.navLog.Nodup ∧ ∀ x ∈ st.navLog, x ∈ st.visited)
    env pset cfg
    (fun st url depth hst => crawl_page_navInv env pset cfg st url depth hst)
    (fun st d hst => hst)
    (fun st hst => hst)
    s u ⟨h1, h2⟩

theorem C1_amended_witness :
    initState.navLog.Nodup ∧ (∀ x ∈ initState.navLog, x ∈ initState.visited)
    ∧ ((crawl envTwoParents dedupKeepFirst ⟨2, 10⟩ initState (cs "http://h/")).navLog.Nodup
       ∧ ∀ x ∈ (crawl envTwoParents dedupKeepFirst ⟨2, 10⟩ initState
           (cs "http://h/")).navLog,
           x ∈ (crawl envTwoParents dedupKeepFirst ⟨2, 10⟩ initState
             (cs "http://h/")).visited) :=
  ⟨by decide, by decide,
   C1_amended_each_url_processed_at_most_once envTwoParents dedupKeepFirst ⟨2, 10⟩
     initState (cs "http://h/") (by decide) (by decide)⟩

/-!
## Claim C2
-/

/-- C2: the page budget `|visited| ≤ max_pages` is an invariant of every
`crawl_page` step (hence holds at every point of a crawl run that starts
within budget, and at its end), and no URL makes it past the entry guard of
`crawl_page` with `depth > max_depth` — such a call is a no-op. -/
theorem C2_budget_and_depth_guard :
    (∀ (env : Chars → PageOutcome) (pset : List Chars → List Chars) (cfg : Config)
       (s : CrawlState) (url : Chars) (depth : Nat),
       s.visited.length ≤ cfg.max_pages →
         (crawl_page env pset cfg s url depth).1.visited.length ≤ cfg.max_pages)
    ∧ (∀ (env : Chars → PageOutcome) (pset : List Chars → List Chars) (cfg : Config)
       (s : CrawlState) (url : Chars) (depth : Nat),
       cfg.max_depth < depth → crawl_page env pset cfg s url depth = (s, []))
    ∧ (∀ (env : Chars → PageOutcome) (pset : List Chars → List Chars) (cfg : Config)
       (s : CrawlState) (u : Chars),
       s.visited.length ≤ cfg.max_pages →
         (crawl env pset cfg s u).visited.length ≤ cfg.max_pages) := by
  refine ⟨fun env pset cfg s url depth h => crawl_page_budget env pset cfg s url depth h,
    ?_, ?_⟩
  · intro env pset cfg s url depth hd
    rcases crawl_page_shape env pset cfg s url depth with ⟨heq, _⟩ | ⟨_, _, hd2, _⟩
    · exact heq
    · omega
  · intro env pset cfg s u h
    exact crawl_pres (fun st => st.visited.length ≤ cfg.max_pages) env pset cfg
      (fun st url depth hst => crawl_page_budget env pset cfg st url depth hst)
      (fun st d hst => hst) (fun st hst => hst) s u h

theorem C2_witness :
    initState.visited.length ≤ (⟨2, 10⟩ : Config).max_pages
    ∧ (⟨2, 10⟩ : Config).max_depth < 3
    ∧ (crawl_page envTwoParents dedupKeepFirst ⟨2, 10⟩ initState
        (cs "http://h/") 0).1.visited.length ≤ (⟨2, 10⟩ : Config).max_pages
    ∧ crawl_page envTwoParents dedupKeepFirst ⟨2, 10⟩ initState (cs "http://h/") 3
        = (initState, [])
    ∧ (crawl envTwoParents dedupKeepFirst ⟨2, 10⟩ initState
        (cs "http://h/")).visited.length ≤ (⟨2, 10⟩ : Config).max_pages :=
  ⟨by decide, by decide,
   C2_budget_and_depth_guard.1 envTwoParents dedupKeepFirst ⟨2, 10⟩ initState
     (cs "http://h/") 0 (by decide),
   C2_budget_and_depth_guard.2.1 envTwoParents dedupKeepFirst ⟨2, 10⟩ initState
     (cs "http://h/") 3 (by decide),
   C2_budget_and_depth_guard.2.2 envTwoParents dedupKeepFirst ⟨2, 10⟩ initState
     (cs "http://h/") (by decide)⟩

/-!
## Claim C3
-/

/-- C3 [the claim is right, the code is wrong]: on the successful
extraction-with-link-discovery path (`depth < max_depth`, navigation
succeeds) `crawl_page` returns from *inside* the `try` block (crawler.py
line 212) and never reaches the `time.sleep(self.request_interval)` at line
218, so no pacing delay is performed for such a URL — here `sleeps = 0` for
a fresh in-budget URL at depth `0 < max_depth`.  On a navigation failure
the delay does happen (`sleeps = 1`).  This contradicts the documented
intent ("Add delay between requests to be respectful", line 217) and the
spec's "applied once per processed URL ... regardless of success/failure". -/
theorem C3_sleep_skipped_on_successful_link_discovery :
    (crawl_page envOnePage dedupKeepFirst ⟨2, 10⟩ initState (cs "http://h/") 0).1.sleeps = 0
    ∧ (crawl_page envOnePage dedupKeepFirst ⟨2, 10⟩ initState (cs "http://h/bad") 0).1.sleeps = 1
    ∧ (cs "http://h/") ∉ initState.visited
    ∧ initState.visited.length < (⟨2, 10⟩ : Config).max_pages
    ∧ (0 : Nat) ≤ (⟨2, 10⟩ : Config).max_depth := by
  decide

/-!
## Claim C4
-/

/-- C4: a URL whose navigation raises is isolated: `crawl_page` catches the
error (the model's `navErr` branch is the `except` clause — it returns
normally), appends no extraction record and returns an empty link list; and
a crawl in which *every* navigation raises still terminates and persists
the accumulated records. -/
theorem C4_navigation_error_isolated :
    (∀ (env : Chars → PageOutcome) (pset : List Chars → List Chars) (cfg : Config)
       (s : CrawlState) (url : Chars) (depth : Nat),
       env url = .navErr →
         (crawl_page env pset cfg s url depth).2 = []
         ∧ (crawl_page env pset cfg s url depth).1.data = s.data)
    ∧ (∀ (env : Chars → PageOutcome) (pset : List Chars → List Chars) (cfg : Config)
       (s : CrawlState) (u : Chars),
       (∀ v, env v = .navErr) →
         (crawl env pset cfg s u).data = s.data
         ∧ (crawl env pset cfg s u).savedData = some s.data) := by
  constructor
  · intro env pset cfg s url depth h
    have key : crawl_page env pset cfg s url depth = (s, [])
        ∨ crawl_page env pset cfg s url depth =
          ({ s with
              visited := s.visited ++ [url],
              navLog := s.navLog ++ [url],
              sleeps := s.sleeps + 1 }, []) := by
      by_cases h1 : url ∈ s.visited
      · left; simp [crawl_page, h1]
      by_cases h2 : cfg.max_pages ≤ s.visited.length
      · left; simp [crawl_page, h1, h2]
      by_cases h3 : cfg.max_depth < depth
      · left; simp [crawl_page, h1, h2, h3]
      right; simp [crawl_page, h1, h2, h3, h]
    rcases key with heq | heq <;> rw [heq] <;> exact ⟨rfl, rfl⟩
  · intro env pset cfg s u h
    have hdata : (crawl env pset cfg s u).data = s.data := by
      exact crawl_pres (fun st => st.data = s.data) env pset cfg
        (fun st url depth hst => by
          have key : crawl_page env pset cfg st url depth = (st, [])
              ∨ crawl_page env pset cfg st url depth =
                ({ st with
                    visited := st.visited ++ [url],
                    navLog := st.navLog ++ [url],
                    sleeps := st.sleeps + 1 }, []) := by
            by_cases h1 : url ∈ st.visited
            · left; simp [crawl_page, h1]
            by_cases h2 : cfg.max_pages ≤ st.visited.length
            · left; simp [crawl_page, h1, h2]
            by_cases h3 : cfg.max_depth < depth
            · left; simp [crawl_page, h1, h2, h3]
            right; simp [crawl_page, h1, h2, h3, h url]
          rcases key with heq | heq <;> rw [heq] <;> exact hst)
        (fun st d hst => hst) (fun st hst => hst) s u rfl
    refine ⟨hdata, ?_⟩
    rw [crawl_savedData_eq, hdata]

theorem C4_witness :
    envAllFail (cs "http://h/") = .navErr
    ∧ ((crawl_page envAllFail dedupKeepFirst ⟨2, 10⟩ initState (cs "http://h/") 0).2 = []
       ∧ (crawl_page envAllFail dedupKeepFirst ⟨2, 10⟩ initState
           (cs "http://h/") 0).1.data = initState.data)
    ∧ (∀ v, envAllFail v = .navErr)
    ∧ ((crawl envAllFail dedupKeepFirst ⟨2, 10⟩ initState (cs "http://h/")).data
         = initState.data
       ∧ (crawl envAllFail dedupKeepFirst ⟨2, 10⟩ initState
           (cs "http://h/")).savedData = some initState.data) :=
  ⟨rfl,
   C4_navigation_error_isolated.1 envAllFail dedupKeepFirst ⟨2, 10⟩ initState
     (cs "http://h/") 0 rfl,
   fun _ => rfl,
   C4_navigation_error_isolated.2 envAllFail dedupKeepFirst ⟨2, 10⟩ initState
     (cs "http://h/") (fun _ => rfl)⟩

/-!
## Claim C6
-/

set_option maxRecDepth 8000 in
/-- C6: with proxy pool `[A, B, C]` (labels `0, 1, 2`), presented
round-robin starting at `A`, rotation threshold 10 and 25 processed pages,
the active-identity sequence recorded at each base `crawl_page` call is `A`
for pages 1-10, `B` for pages 11-20 and `C` for pages 21-25; the per-session
request counter, logged after each page, shows it is reset to zero on each
rotation (it reads 1, not 11, on pages 11 and 21) and increases
monotonically between rotations. -/
theorem C6_rotation_identity_sequence_25_pages :
    (advRun [0, 1, 2] 1 25 (advInit [0, 1, 2])).identLog
      = List.replicate 10 (some 0) ++ List.replicate 10 (some 1)
        ++ List.replicate 5 (some 2)
    ∧ (advRun [0, 1, 2] 1 25 (advInit [0, 1, 2])).counterLog
      = [1, 2, 3, 4, 5, 6, 7, 8, 9, 10, 1, 2, 3, 4, 5, 6, 7, 8, 9, 10,
         1, 2, 3, 4, 5] := by
  decide

/-!
## Claim C10
-/

/-- C10: `crawl` never resets `visited_urls` or `data`: the state after any
crawl extends the incoming instance state (first-run results included), and
if the incoming visited set has already consumed the whole page budget, a
second `crawl` visits nothing new yet still persists the old records. -/
theorem C10_crawl_never_resets_state :
    (∀ (env : Chars → PageOutcome) (pset : List Chars → List Chars) (cfg : Config)
       (s : CrawlState) (u : Chars),
       (∃ t, (crawl env pset cfg s u).visited = s.visited ++ t)
       ∧ ∃ t, (crawl env pset cfg s u).data = s.data ++ t)
    ∧ (∀ (env : Chars → PageOutcome) (pset : List Chars → List Chars) (cfg : Config)
       (s : CrawlState) (u : Chars),
       cfg.max_pages ≤ s.visited.length →
         (crawl env pset cfg s u).visited = s.visited
         ∧ (crawl env pset cfg s u).data = s.data
         ∧ (crawl env pset cfg s u).savedData = some s.data) := by
  constructor
  · intro env pset cfg s u
    exact crawl_pres
      (fun st => (∃ t, st.visited = s.visited ++ t) ∧ ∃ t, st.data = s.data ++ t)
      env pset cfg
      (fun st url depth hst => by
        rcases hst with ⟨⟨t1, ht1⟩, ⟨t2, ht2⟩⟩
        rcases crawl_page_shape env pset cfg st url depth with ⟨heq, _⟩ |
          ⟨_, _, _, d2, sl2, links, heq, _, _⟩
        · rw [heq]; exact ⟨⟨t1, ht1⟩, ⟨t2, ht2⟩⟩
        · rw [heq]
          refine ⟨⟨t1 ++ [url], ?_⟩, ⟨t2 ++ d2, ?_⟩⟩
          · show st.visited ++ [url] = s.visited ++ (t1 ++ [url])
            rw [ht1, List.append_assoc]
          · show st.data ++ d2 = s.data ++ (t2 ++ d2)
            rw [ht2, List.append_assoc])
      (fun st d hst => hst) (fun st hst => hst) s u
      ⟨⟨[], by simp⟩, ⟨[], by simp⟩⟩
  · intro env pset cfg s u h
    simp only [crawl]
    rw [crawlLoop_stop env pset cfg (cfg.max_depth + 2)
      { s with enqueueLog := s.enqueueLog ++ [u] } [u] 0 (Or.inr h)]
    exact ⟨rfl, rfl, rfl⟩

theorem C10_witness :
    (∃ t, (crawl envAllFail dedupKeepFirst ⟨1, 0⟩ initState (cs "u")).visited
       = initState.visited ++ t)
    ∧ (∃ t, (crawl envAllFail dedupKeepFirst ⟨1, 0⟩ initState (cs "u")).data
       = initState.data ++ t)
    ∧ (⟨1, 0⟩ : Config).max_pages ≤ initState.visited.length
    ∧ ((crawl envAllFail dedupKeepFirst ⟨1, 0⟩ initState (cs "u")).visited
         = initState.visited
       ∧ (crawl envAllFail dedupKeepFirst ⟨1, 0⟩ initState (cs "u")).data
         = initState.data
       ∧ (crawl envAllFail dedupKeepFirst ⟨1, 0⟩ initState (cs "u")).savedData
         = some initState.data) :=
  ⟨(C10_crawl_never_resets_state.1 envAllFail dedupKeepFirst ⟨1, 0⟩ initState (cs "u")).1,
   (C10_crawl_never_resets_state.1 envAllFail dedupKeepFirst ⟨1, 0⟩ initState (cs "u")).2,
   by decide,
   C10_crawl_never_resets_state.2 envAllFail dedupKeepFirst ⟨1, 0⟩ initState (cs "u")
     (by decide)⟩

/-!
## Claim C5
-/

/-- C5 [counterexample]: `extract_links` pipes the discovered links through
`list(set(filtered_links))`, whose enumeration order Python does not
specify.  `psetRev` is one admissible enumeration (`ValidSetEnum psetRev`);
under it, the links of the start page are discovered in insertion order
`[a, b]` (second conjunct) but the next level is processed in the order
`[b, a]` (third conjunct, via the navigation log).  So "insertion order,
not ... otherwise permuted" is false as stated. -/
theorem C5_counterexample_processing_order_permuted :
    ValidSetEnum psetRev
    ∧ orderedFilteredLinks (cs "http://h/")
        ([cs "http://h/a", cs "http://h/b"].filter jsKeep)
      = [cs "http://h/a", cs "http://h/b"]
    ∧ (crawl envTwoKids psetRev ⟨1, 10⟩ initState (cs "http://h/")).navLog
      = [cs "http://h/", cs "http://h/b", cs "http://h/a"] :=
  ⟨validSetEnum_psetRev, by decide, by decide⟩

/-- C5 (amended): within a level, URLs are processed grouped by the page
that discovered them, in page order; but one page's group is only a
*permutation* of the (first-occurrence-deduplicated) filtered links in
discovery order — the `list(set(...))` enumeration order is unspecified and
need not be insertion order. -/
theorem C5_amended_page_links_up_to_permutation
    (pset : List Chars → List Chars) (hrefs : List Chars) (base : Chars)
    (hv : ValidSetEnum pset) :
    (extract_links pset hrefs base).Perm
      (dedupKeepFirst (orderedFilteredLinks base (hrefs.filter jsKeep))) := by
  have h1 := hv (orderedFilteredLinks base (hrefs.filter jsKeep))
  have h2 := validSetEnum_dedupKeepFirst (orderedFilteredLinks base (hrefs.filter jsKeep))
  exact (List.perm_ext_iff_of_nodup h1.1 h2.1).mpr (fun x => by rw [h1.2 x, h2.2 x])

theorem C5_amended_witness :
    ValidSetEnum psetRev
    ∧ (extract_links psetRev [cs "http://h/a", cs "http://h/b"] (cs "http://h/")).Perm
        (dedupKeepFirst (orderedFilteredLinks (cs "http://h/")
          ([cs "http://h/a", cs "http://h/b"].filter jsKeep))) :=
  ⟨validSetEnum_psetRev,
   C5_amended_page_links_up_to_permutation psetRev
     [cs "http://h/a", cs "http://h/b"] (cs "http://h/") validSetEnum_psetRev⟩

/-!
## Claim C9
-/

theorem adv_step_navLog (proxies : List Nat) (st : AdvState) (page : Nat) :
    (adv_crawl_page proxies st page).navLog = st.navLog ++ [page] := by
  by_cases hrot : proxies ≠ [] ∧ 10 ≤ st.counter <;>
    simp [adv_crawl_page, is_robots_allowed, hrot, rotate_proxy]

theorem adv_step_pageCtx (proxies : List Nat) (st : AdvState) (page : Nat) :
    (adv_crawl_page proxies st page).heap.pageCtx = st.heap.pageCtx
    ∨ ∃ pr, (adv_crawl_page proxies st page).heap.pageCtx = st.heap.pageCtx ++ [pr] := by
  by_cases hrot : proxies ≠ [] ∧ 10 ≤ st.counter
  · right
    exact ⟨(st.heap.nextId + 1, st.heap.nextId),
      by simp [adv_crawl_page, is_robots_allowed, hrot, rotate_proxy]⟩
  · left
    simp [adv_crawl_page, is_robots_allowed, hrot]

theorem adv_step_closed_rot (proxies : List Nat) (st : AdvState) (page : Nat)
    (hrot : proxies ≠ [] ∧ 10 ≤ st.counter) :
    (adv_crawl_page proxies st page).heap.closedCtxs
      = st.heap.closedCtxs ++ [ctxOf st.heap page] := by
  simp [adv_crawl_page, is_robots_allowed, hrot, rotate_proxy]

theorem adv_step_closed_norot (proxies : List Nat) (st : AdvState) (page : Nat)
    (hrot : ¬ (proxies ≠ [] ∧ 10 ≤ st.counter)) :
    (adv_crawl_page proxies st page).heap.closedCtxs = st.heap.closedCtxs := by
  simp [adv_crawl_page, is_robots_allowed, hrot]

theorem adv_step_counter_norot (proxies : List Nat) (st : AdvState) (page : Nat)
    (hrot : ¬ (proxies ≠ [] ∧ 10 ≤ st.counter)) :
    (adv_crawl_page proxies st page).counter = st.counter + 1 := by
  simp [adv_crawl_page, is_robots_allowed, hrot]

theorem ctxOf_cons (h : RotHeap) (rest : List (Nat × Nat))
    (hh : h.pageCtx = (1, 0) :: rest) : ctxOf h 1 = 0 := by
  simp [ctxOf, hh, List.find?]

/-- C9: `_rotate_proxy` receives the page reference by value; its final
`page = new_page` assignment rebinds only the function-local name (the
returned local is the freshly created page `nextId + 1`, and the caller
discards it), while the context owning the caller's page has been closed.
Consequently, in a run long enough to rotate (`n > 10` pages, pool
`[0, 1]`): every navigation — including all post-rotation ones — still goes
through the original page `1` (never through any rotation-created page),
the context of page `1` is still context `0`, and context `0` has been
closed. -/
theorem C9_rotation_rebinds_only_local (n : Nat) (hn : 10 < n) :
    (advRun [0, 1] 1 n (advInit [0, 1])).navLog = List.replicate n 1
    ∧ ctxOf (advRun [0, 1] 1 n (advInit [0, 1])).heap 1 = 0
    ∧ 0 ∈ (advRun [0, 1] 1 n (advInit [0, 1])).heap.closedCtxs
    ∧ ∀ (st : AdvState) (page : Nat),
        (rotate_proxy [0, 1] st page).2 = st.heap.nextId + 1 := by
  have step : ∀ (k : Nat) (st : AdvState),
      ((∃ rest, st.heap.pageCtx = (1, 0) :: rest)
        ∧ st.navLog = List.replicate k 1
        ∧ (k ≤ 10 → st.counter = k ∧ st.heap.closedCtxs = [])
        ∧ (10 < k → 0 ∈ st.heap.closedCtxs)) →
      ((∃ rest, (adv_crawl_page [0, 1] st 1).heap.pageCtx = (1, 0) :: rest)
        ∧ (adv_crawl_page [0, 1] st 1).navLog = List.replicate (k + 1) 1
        ∧ (k + 1 ≤ 10 → (adv_crawl_page [0, 1] st 1).counter = k + 1
            ∧ (adv_crawl_page [0, 1] st 1).heap.closedCtxs = [])
        ∧ (10 < k + 1 → 0 ∈ (adv_crawl_page [0, 1] st 1).heap.closedCtxs)) := by
    intro k st ⟨⟨rest, hpc⟩, hnav, hle, hgt⟩
    refine ⟨?_, ?_, ?_, ?_⟩
    · rcases adv_step_pageCtx [0, 1] st 1 with heq | ⟨pr, heq⟩
      · exact ⟨rest, by rw [heq, hpc]⟩
      · exact ⟨rest ++ [pr], by rw [heq, hpc]; rfl⟩
    · rw [adv_step_navLog, hnav, List.replicate_succ']
    · intro hk1
      have hk : k ≤ 10 := by omega
      have hc := (hle hk).1
      have hcl := (hle hk).2
      have hrot : ¬ (([0, 1] : List Nat) ≠ [] ∧ 10 ≤ st.counter) := by
        rw [hc]
        simp only [ne_eq, not_and, not_le]
        intro
        omega
      rw [adv_step_counter_norot [0, 1] st 1 hrot, adv_step_closed_norot [0, 1] st 1 hrot, hc]
      exact ⟨rfl, hcl⟩
    · intro hk1
      by_cases hrot : (([0, 1] : List Nat) ≠ [] ∧ 10 ≤ st.counter)
      · rw [adv_step_closed_rot [0, 1] st 1 hrot]
        exact List.mem_append_right _ (by
          rw [ctxOf_cons st.heap rest hpc]
          exact List.mem_singleton.mpr rfl)
      · rw [adv_step_closed_norot [0, 1] st 1 hrot]
        by_cases hk : k ≤ 10
        · -- then k = 10 (since 10 < k + 1), counter = 10, so rotation would fire
          have h10 : k = 10 := by omega
          have hc := (hle hk).1
          exact absurd ⟨by simp, by rw [hc, h10]⟩ hrot
        · exact hgt (by omega)
  have main : ∀ (m k : Nat) (st : AdvState),
      ((∃ rest, st.heap.pageCtx = (1, 0) :: rest)
        ∧ st.navLog = List.replicate k 1
        ∧ (k ≤ 10 → st.counter = k ∧ st.heap.closedCtxs = [])
        ∧ (10 < k → 0 ∈ st.heap.closedCtxs)) →
      ((∃ rest, (advRun [0, 1] 1 m st).heap.pageCtx = (1, 0) :: rest)
        ∧ (advRun [0, 1] 1 m st).navLog = List.replicate (k + m) 1
        ∧ (k + m ≤ 10 → (advRun [0, 1] 1 m st).counter = k + m
            ∧ (advRun [0, 1] 1 m st).heap.closedCtxs = [])
        ∧ (10 < k + m → 0 ∈ (advRun [0, 1] 1 m st).heap.closedCtxs)) := by
    intro m
    induction m with
    | zero => intro k st h; exact h
    | succ j ih =>
      intro k st h
      have hres := ih (k + 1) (adv_crawl_page [0, 1] st 1) (step k st h)
      rw [show k + (j + 1) = (k + 1) + j by omega]
      exact hres
  have hinit : (∃ rest, (advInit [0, 1]).heap.pageCtx = (1, 0) :: rest)
      ∧ (advInit [0, 1]).navLog = List.replicate 0 1
      ∧ (0 ≤ 10 → (advInit [0, 1]).counter = 0 ∧ (advInit [0, 1]).heap.closedCtxs = [])
      ∧ (10 < 0 → 0 ∈ (advInit [0, 1]).heap.closedCtxs) := by
    refine ⟨⟨[], rfl⟩, rfl, fun _ => ⟨rfl, rfl⟩, fun h => absurd h (by omega)⟩
  have hrun := main n 0 (advInit [0, 1]) hinit
  refine ⟨?_, ?_, ?_, ?_⟩
  · have := hrun.2.1
    rwa [Nat.zero_add] at this
  · rcases hrun.1 with ⟨rest, hpc⟩
    exact ctxOf_cons _ rest hpc
  · exact hrun.2.2.2 (by omega)
  · intro st page
    rfl

theorem C9_witness :
    (10 : Nat) < 12
    ∧ ((advRun [0, 1] 1 12 (advInit [0, 1])).navLog = List.replicate 12 1
       ∧ ctxOf (advRun [0, 1] 1 12 (advInit [0, 1])).heap 1 = 0
       ∧ 0 ∈ (advRun [0, 1] 1 12 (advInit [0, 1])).heap.closedCtxs
       ∧ ∀ (st : AdvState) (page : Nat),
           (rotate_proxy [0, 1] st page).2 = st.heap.nextId + 1) :=
  ⟨by decide, C9_rotation_rebinds_only_local 12 (by decide)⟩

/-!
## Helper lemmas: scheme extraction
-/

theorem goodScheme_of_splitScheme (url sc rest : Chars)
    (h : splitScheme url = some (sc, rest)) : GoodScheme sc := by
  rcases hbk : breakAt ':' url with ⟨pre, o⟩
  rcases o with _ | r
  · simp only [splitScheme, hbk] at h
    exact Option.noConfusion h
  · simp only [splitScheme, hbk] at h
    split_ifs at h with hcond
    · obtain ⟨h1, h2, h3⟩ := hcond
      rcases h with ⟨rfl, rfl⟩
      refine ⟨?_, ?_, ?_, ?_⟩
      · simpa [List.map_eq_nil_iff] using h1
      · rcases pre with _ | ⟨c, t⟩
        · exact absurd rfl h1
        · simpa using isAsciiAlpha_lowerChar c (by simpa using h2)
      · rw [List.all_eq_true]
        intro x hx
        rcases List.mem_map.mp hx with ⟨y, hy, rfl⟩
        exact schemeChar_lowerChar y (List.all_eq_true.mp h3 y hy)
      · rw [List.map_map]
        exact List.map_congr_left (fun a _ => lowerChar_idem a)

theorem goodScheme_chars (sc : Chars) (hsc : GoodScheme sc) :
    ':' ∉ sc ∧ '/' ∉ sc ∧ '?' ∉ sc ∧ '#' ∉ sc ∧ ';' ∉ sc := by
  obtain ⟨_, _, h3, _⟩ := hsc
  refine ⟨fun hm => ?_, fun hm => ?_, fun hm => ?_, fun hm => ?_, fun hm => ?_⟩ <;>
    have := schemeChar_ne _ (List.all_eq_true.mp h3 _ hm)
  · exact this.1 rfl
  · exact this.2.1 rfl
  · exact this.2.2.1 rfl
  · exact this.2.2.2.1 rfl
  · exact this.2.2.2.2 rfl

theorem splitScheme_build (sc t : Chars) (hsc : GoodScheme sc) :
    splitScheme (sc ++ ':' :: t) = some (sc, t) := by
  obtain ⟨h1, h2, h3, h4⟩ := hsc
  have hns : ':' ∉ sc := (goodScheme_chars sc ⟨h1, h2, h3, h4⟩).1
  simp only [splitScheme, breakAt_append ':' sc t hns]
  rw [if_pos ⟨h1, h2, h3⟩, h4]

theorem splitScheme_of_goodScheme_none (url : Chars) (h : splitScheme url = none) :
    ∀ sc rest, url ≠ sc ++ ':' :: rest ∨ ¬ GoodScheme sc := by
  intro sc rest
  by_cases he : url = sc ++ ':' :: rest
  · right
    intro hg
    rw [he, splitScheme_build sc rest hg] at h
    exact Option.noConfusion h
  · exact Or.inl he

/-!
## Helper lemmas: `urlsplit` stages
-/

theorem urlsplit_eq (dflt url : Chars) :
    urlsplit dflt url =
      ⟨(schemeStage dflt url).1,
       (netlocStage (schemeStage dflt url).2).1,
       (queryStage (fragStage (netlocStage (schemeStage dflt url).2).2).1).1,
       [],
       (queryStage (fragStage (netlocStage (schemeStage dflt url).2).2).1).2,
       (fragStage (netlocStage (schemeStage dflt url).2).2).2⟩ := rfl

theorem schemeStage_cases (dflt url : Chars) :
    (splitScheme url = some ((schemeStage dflt url).1, (schemeStage dflt url).2))
    ∨ (splitScheme url = none ∧ (schemeStage dflt url).1 = dflt
       ∧ (schemeStage dflt url).2 = url) := by
  rcases hsp : splitScheme url with _ | ⟨s, r⟩
  · right
    simp [schemeStage, hsp]
  · left
    simp [schemeStage, hsp]

theorem netlocStage_free (rest : Chars) :
    ∀ c ∈ (netlocStage rest).1, c ≠ '/' ∧ c ≠ '?' ∧ c ≠ '#' := by
  intro c hc
  unfold netlocStage at hc
  split_ifs at hc with h
  · have := (spanUntil_spec ['/', '?', '#'] (rest.drop 2)).2.1 c hc
    simp only [List.mem_cons, not_or] at this
    exact ⟨this.1, this.2.1, this.2.2.1⟩
  · exact absurd hc (List.not_mem_nil c)

theorem netlocStage_rest (rest : Chars) :
    (netlocStage rest).2 = rest
    ∨ ((netlocStage rest).2 = []
       ∨ ∃ c t, (netlocStage rest).2 = c :: t ∧ (c = '/' ∨ c = '?' ∨ c = '#')) := by
  unfold netlocStage
  split_ifs with h
  · right
    rcases (spanUntil_spec ['/', '?', '#'] (rest.drop 2)).2.2 with h2 | ⟨c, t, hct, hcm⟩
    · exact Or.inl h2
    · refine Or.inr ⟨c, t, hct, ?_⟩
      simpa using hcm
  · exact Or.inl rfl

theorem netlocStage_nonempty_branch (rest : Chars) (h : (netlocStage rest).1 ≠ []) :
    rest.take 2 = cs "//" := by
  unfold netlocStage at h
  split_ifs at h with h2
  · exact h2
  · exact absurd rfl h

theorem fragStage_fst (rest : Chars) : (fragStage rest).1 = (breakAt '#' rest).1 := by
  unfold fragStage
  rcases hbk : breakAt '#' rest with ⟨a, _ | f⟩ <;> simp

theorem fragStage_no_hash (rest : Chars) : '#' ∉ (fragStage rest).1 := by
  rw [fragStage_fst]
  rcases breakAt_spec '#' rest with ⟨h1, h2⟩ | ⟨a, b, h1, h2, h3⟩
  · rw [h2]; exact h1
  · rw [h3]; exact h1

theorem fragStage_of_no_hash (rest : Chars) (h : '#' ∉ rest) : fragStage rest = (rest, []) := by
  unfold fragStage
  rw [breakAt_not_mem '#' rest h]

theorem queryStage_no_qmark (rest : Chars) : '?' ∉ (queryStage rest).1 := by
  unfold queryStage
  rcases breakAt_spec '?' rest with ⟨h1, h2⟩ | ⟨a, b, h1, h2, h3⟩
  · rw [h2]; exact h1
  · rw [h3]; exact h1

theorem queryStage_decomp (rest : Chars) :
    (queryStage rest = (rest, []) ∧ '?' ∉ rest)
    ∨ (rest = (queryStage rest).1 ++ '?' :: (queryStage rest).2
       ∧ '?' ∉ (queryStage rest).1) := by
  unfold queryStage
  rcases breakAt_spec '?' rest with ⟨h1, h2⟩ | ⟨a, b, h1, h2, h3⟩
  · rw [h2]; exact Or.inl ⟨rfl, h1⟩
  · rw [h3]; exact Or.inr ⟨h2, h1⟩

theorem queryStage_of_no_qmark (rest : Chars) (h : '?' ∉ rest) :
    queryStage rest = (rest, []) := by
  unfold queryStage
  rw [breakAt_not_mem '?' rest h]

theorem fragStage_decomp (rest : Chars) :
    (fragStage rest = (rest, []) ∧ '#' ∉ rest)
    ∨ (rest = (fragStage rest).1 ++ '#' :: (fragStage rest).2
       ∧ '#' ∉ (fragStage rest).1) := by
  unfold fragStage
  rcases breakAt_spec '#' rest with ⟨h1, h2⟩ | ⟨a, b, h1, h2, h3⟩
  · rw [h2]; exact Or.inl ⟨rfl, h1⟩
  · rw [h3]; exact Or.inr ⟨h2, h1⟩

/-!
## Helper lemmas: `breakAt` characterizations and `splitAtLastSlash`
-/

theorem breakAt_some_eq (stop : Char) (l a b : Chars) (h : breakAt stop l = (a, some b)) :
    l = a ++ stop :: b ∧ stop ∉ a := by
  rcases breakAt_spec stop l with ⟨h1, h2⟩ | ⟨a', b', h1, h2, h3⟩
  · rw [h2] at h
    exact absurd (congrArg Prod.snd h) (by simp)
  · rw [h3] at h
    cases h
    exact ⟨h2, h1⟩

theorem breakAt_none_eq (stop : Char) (l a : Chars) (h : breakAt stop l = (a, none)) :
    a = l ∧ stop ∉ l := by
  rcases breakAt_spec stop l with ⟨h1, h2⟩ | ⟨a', b', h1, h2, h3⟩
  · rw [h2] at h
    cases h
    exact ⟨rfl, h1⟩
  · rw [h3] at h
    exact absurd (congrArg Prod.snd h) (by simp)

theorem breakAt_cons_ne (stop c : Char) (t : Chars) (h : ¬ c = stop) :
    breakAt stop (c :: t) = (c :: (breakAt stop t).1, (breakAt stop t).2) := by
  simp [breakAt, h]

theorem breakAt_cons_eq (stop : Char) (t : Chars) :
    breakAt stop (stop :: t) = ([], some t) := by
  simp [breakAt]

theorem splitAtLastSlash_spec (p : Chars) :
    (splitAtLastSlash p).1 ++ (splitAtLastSlash p).2 = p
    ∧ '/' ∉ (splitAtLastSlash p).2
    ∧ ('/' ∈ p → ∃ a', (splitAtLastSlash p).1 = a' ++ ['/']) := by
  induction p with
  | nil => simp [splitAtLastSlash]
  | cons c rest ih =>
    by_cases hr : '/' ∈ rest
    · rw [show splitAtLastSlash (c :: rest)
          = (c :: (splitAtLastSlash rest).1, (splitAtLastSlash rest).2) by
        simp [splitAtLastSlash, hr]]
      refine ⟨by simp [ih.1], ih.2.1, ?_⟩
      intro _
      rcases ih.2.2 hr with ⟨a', ha⟩
      exact ⟨c :: a', by simp [ha]⟩
    · by_cases hc : c = '/'
      · subst hc
        rw [show splitAtLastSlash ('/' :: rest) = (['/'], rest) by
          simp [splitAtLastSlash, hr]]
        exact ⟨rfl, hr, fun _ => ⟨[], rfl⟩⟩
      · rw [show splitAtLastSlash (c :: rest) = ([], c :: rest) by
          simp [splitAtLastSlash, hr, hc]]
        refine ⟨rfl, ?_, ?_⟩
        · simp only [List.mem_cons, not_or]
          exact ⟨fun e => hc e.symm, hr⟩
        · intro hmem
          rcases List.mem_cons.mp hmem with e | e
          · exact absurd e.symm hc
          · exact absurd e hr

theorem splitAtLastSlash_append_left (x y : Chars) (hx : '/' ∈ x) (hy : '/' ∉ y) :
    splitAtLastSlash (x ++ y) = ((splitAtLastSlash x).1, (splitAtLastSlash x).2 ++ y) := by
  induction x with
  | nil => exact absurd hx (List.not_mem_nil '/')
  | cons c rest ih =>
    by_cases hr : '/' ∈ rest
    · have hr2 : '/' ∈ rest ++ y := List.mem_append_left y hr
      rw [show (c :: rest) ++ y = c :: (rest ++ y) by simp]
      rw [show splitAtLastSlash (c :: (rest ++ y))
          = (c :: (splitAtLastSlash (rest ++ y)).1, (splitAtLastSlash (rest ++ y)).2) by
        simp [splitAtLastSlash, hr2]]
      rw [ih hr]
      rw [show splitAtLastSlash (c :: rest)
          = (c :: (splitAtLastSlash rest).1, (splitAtLastSlash rest).2) by
        simp [splitAtLastSlash, hr]]
    · have hc : c = '/' := by
        rcases List.mem_cons.mp hx with e | e
        · exact e.symm
        · exact absurd e hr
      subst hc
      have hry : '/' ∉ rest ++ y := by
        simp only [List.mem_append, not_or]
        exact ⟨hr, hy⟩
      rw [show ('/' :: rest) ++ y = '/' :: (rest ++ y) by simp]
      rw [show splitAtLastSlash ('/' :: (rest ++ y)) = (['/'], rest ++ y) by
        simp [splitAtLastSlash, hry]]
      rw [show splitAtLastSlash ('/' :: rest) = (['/'], rest) by
        simp [splitAtLastSlash, hr]]

theorem splitAtLastSlash_append_right (a q : Chars) (ha : '/' ∉ a) (hq : '/' ∈ q) :
    splitAtLastSlash (a ++ q) = (a ++ (splitAtLastSlash q).1, (splitAtLastSlash q).2) := by
  induction a with
  | nil => simp
  | cons c rest ih =>
    simp only [List.mem_cons, not_or] at ha
    have hr : '/' ∈ rest ++ q := List.mem_append_right rest hq
    rw [show (c :: rest) ++ q = c :: (rest ++ q) by simp]
    rw [show splitAtLastSlash (c :: (rest ++ q))
        = (c :: (splitAtLastSlash (rest ++ q)).1, (splitAtLastSlash (rest ++ q)).2) by
      simp [splitAtLastSlash, hr]]
    rw [ih ha.2]
    simp

theorem splitAtLastSlash_ends_slash (a : Chars) :
    splitAtLastSlash (a ++ ['/']) = (a ++ ['/'], []) := by
  induction a with
  | nil => simp [splitAtLastSlash]
  | cons c rest ih =>
    have hr : '/' ∈ rest ++ ['/'] := List.mem_append_right rest (by simp)
    rw [show (c :: rest) ++ ['/'] = c :: (rest ++ ['/']) by simp]
    rw [show splitAtLastSlash (c :: (rest ++ ['/']))
        = (c :: (splitAtLastSlash (rest ++ ['/'])).1, (splitAtLastSlash (rest ++ ['/'])).2) by
      simp [splitAtLastSlash, hr]]
    rw [ih]

/-!
## Helper lemmas: `splitparams`
-/

theorem splitparams_no_semi (p : Chars) (h : ';' ∉ p) : splitparams p = (p, []) := by
  unfold splitparams
  split_ifs with hs
  · have hns : ';' ∉ (splitAtLastSlash p).2 := by
      intro hm
      apply h
      rw [← (splitAtLastSlash_spec p).1]
      exact List.mem_append_right _ hm
    rw [breakAt_not_mem ';' _ hns]
  · rw [breakAt_not_mem ';' p h]

theorem splitparams_subset (p : Chars) :
    (∀ c ∈ (splitparams p).1, c ∈ p) ∧ (∀ c ∈ (splitparams p).2, c ∈ p) := by
  unfold splitparams
  split_ifs with hs
  · rcases hbk : breakAt ';' (splitAtLastSlash p).2 with ⟨b1, o⟩
    rcases o with _ | b2
    · exact ⟨fun c hc => hc, fun c hc => absurd hc (List.not_mem_nil c)⟩
    · obtain ⟨hdec, hnb⟩ := breakAt_some_eq ';' _ b1 b2 hbk
      have hp : p = (splitAtLastSlash p).1 ++ (b1 ++ ';' :: b2) := by
        rw [← hdec]
        exact ((splitAtLastSlash_spec p).1).symm
      constructor
      · intro c hc
        rcases List.mem_append.mp hc with hc | hc
        · rw [hp]; exact List.mem_append_left _ hc
        · rw [hp]; exact List.mem_append_right _ (List.mem_append_left _ hc)
      · intro c hc
        rw [hp]
        exact List.mem_append_right _ (List.mem_append_right _ (List.mem_cons_of_mem ';' hc))
  · rcases hbk : breakAt ';' p with ⟨p1, o⟩
    rcases o with _ | p2
    · exact ⟨fun c hc => hc, fun c hc => absurd hc (List.not_mem_nil c)⟩
    · obtain ⟨hdec, hnb⟩ := breakAt_some_eq ';' _ p1 p2 hbk
      constructor
      · intro c hc
        rw [hdec]
        exact List.mem_append_left _ hc
      · intro c hc
        rw [hdec]
        exact List.mem_append_right _ (List.mem_cons_of_mem ';' hc)

theorem splitparams_snd_no_slash (p : Chars) : '/' ∉ (splitparams p).2 := by
  unfold splitparams
  split_ifs with hs
  · rcases hbk : breakAt ';' (splitAtLastSlash p).2 with ⟨b1, o⟩
    rcases o with _ | b2
    · exact List.not_mem_nil '/'
    · obtain ⟨hdec, _⟩ := breakAt_some_eq ';' _ b1 b2 hbk
      intro hm
      apply (splitAtLastSlash_spec p).2.1
      rw [hdec]
      exact List.mem_append_right _ (List.mem_cons_of_mem ';' hm)
  · rcases hbk : breakAt ';' p with ⟨p1, o⟩
    rcases o with _ | p2
    · exact List.not_mem_nil '/'
    · obtain ⟨hdec, _⟩ := breakAt_some_eq ';' _ p1 p2 hbk
      intro hm
      exact hs (by
        rw [hdec]
        exact List.mem_append_right _ (List.mem_cons_of_mem ';' hm))

theorem splitparams_head (p : Chars) (h : p.head? = some '/') :
    (splitparams p).1.head? = some '/' := by
  have hs : '/' ∈ p := by
    rcases p with _ | ⟨c, t⟩
    · simp at h
    · simp only [List.head?_cons, Option.some.injEq] at h
      rw [h]
      exact List.mem_cons_self _ _
  unfold splitparams
  rw [if_pos hs]
  rcases hbk : breakAt ';' (splitAtLastSlash p).2 with ⟨b1, o⟩
  rcases o with _ | b2
  · exact h
  · rcases (splitAtLastSlash_spec p).2.2 hs with ⟨a', ha⟩
    have h1 : (splitAtLastSlash p).1 ≠ [] := by
      rw [ha]; simp
    have hdec := (splitAtLastSlash_spec p).1
    rcases hsl : (splitAtLastSlash p).1 with _ | ⟨x, xs⟩
    · exact absurd hsl h1
    · show ((x :: xs) ++ b1).head? = some '/'
      rw [← hdec, hsl] at h
      simpa using h

theorem splitparams_idem (p : Chars) :
    splitparams ((splitparams p).1) = ((splitparams p).1, []) := by
  by_cases hs : '/' ∈ p
  · rcases hbk : breakAt ';' (splitAtLastSlash p).2 with ⟨b1, o⟩
    rcases o with _ | b2
    · have hsp : splitparams p = (p, []) := by
        unfold splitparams
        rw [if_pos hs, hbk]
      rw [hsp]
      show splitparams p = (p, [])
      exact hsp
    · have hsp : splitparams p = ((splitAtLastSlash p).1 ++ b1, b2) := by
        unfold splitparams
        rw [if_pos hs, hbk]
      rw [hsp]
      obtain ⟨hdec, hnb⟩ := breakAt_some_eq ';' _ b1 b2 hbk
      rcases (splitAtLastSlash_spec p).2.2 hs with ⟨a', ha⟩
      have hb1s : '/' ∉ b1 := by
        intro hm
        apply (splitAtLastSlash_spec p).2.1
        rw [hdec]
        exact List.mem_append_left _ hm
      have hsl1 : '/' ∈ (splitAtLastSlash p).1 := by
        rw [ha]
        exact List.mem_append_right a' (by simp)
      have hmem : '/' ∈ (splitAtLastSlash p).1 ++ b1 :=
        List.mem_append_left b1 hsl1
      show splitparams ((splitAtLastSlash p).1 ++ b1) = ((splitAtLastSlash p).1 ++ b1, [])
      unfold splitparams
      rw [if_pos hmem]
      rw [splitAtLastSlash_append_left _ _ hsl1 hb1s]
      rw [ha, splitAtLastSlash_ends_slash a']
      rw [show ([] : Chars) ++ b1 = b1 by simp]
      rw [breakAt_not_mem ';' b1 hnb]
  · rcases hbk : breakAt ';' p with ⟨p1, o⟩
    rcases o with _ | p2
    · have hsp : splitparams p = (p, []) := by
        unfold splitparams
        rw [if_neg hs, hbk]
      rw [hsp]
      show splitparams p = (p, [])
      exact hsp
    · have hsp : splitparams p = (p1, p2) := by
        unfold splitparams
        rw [if_neg hs, hbk]
      rw [hsp]
      obtain ⟨hdec, hnb⟩ := breakAt_some_eq ';' _ p1 p2 hbk
      have hp1 : '/' ∉ p1 := by
        intro hm
        exact hs (by rw [hdec]; exact List.mem_append_left _ hm)
      show splitparams p1 = (p1, [])
      unfold splitparams
      rw [if_neg hp1, breakAt_not_mem ';' p1 hnb]

theorem paramsClean_shift (sc p a p2 : Chars) (hpc : ParamsClean sc p)
    (hdec : p = a ++ p2) (ha : '/' ∉ a)
    (hsh : p2 = [] ∨ p2.head? = some '/' ∨ a = []) : ParamsClean sc p2 := by
  intro ⟨hu, hsem⟩
  have hsemp : ';' ∈ p := by
    rw [hdec]
    exact List.mem_append_right a hsem
  have hid := hpc ⟨hu, hsemp⟩
  rcases hsh with rfl | hh | rfl
  · exact absurd hsem (List.not_mem_nil ';')
  · have hp2s : '/' ∈ p2 := by
      rcases p2 with _ | ⟨c, t⟩
      · simp at hh
      · simp only [List.head?_cons, Option.some.injEq] at hh
        rw [hh]
        exact List.mem_cons_self _ _
    have hps : '/' ∈ p := by
      rw [hdec]
      exact List.mem_append_right a hp2s
    have hnone : ';' ∉ (splitAtLastSlash p).2 := by
      intro hmem
      rcases breakAt_spec ';' (splitAtLastSlash p).2 with ⟨h1, _⟩ | ⟨b1, b2, hb1, hb2, hb3⟩
      · exact h1 hmem
      · have hval : splitparams p = ((splitAtLastSlash p).1 ++ b1, b2) := by
          unfold splitparams
          rw [if_pos hps, hb3]
        rw [hid] at hval
        have hsnd : ([] : Chars) = b2 := congrArg Prod.snd hval
        have hfst : p = (splitAtLastSlash p).1 ++ b1 := congrArg Prod.fst hval
        have hfull : (splitAtLastSlash p).1 ++ (b1 ++ ';' :: b2) = p := by
          rw [← hb2]
          exact (splitAtLastSlash_spec p).1
        have : b1 ++ ';' :: b2 = b1 := List.append_cancel_left (hfull.trans hfst)
        have hlen := congrArg List.length this
        simp at hlen
    have hsls := splitAtLastSlash_append_right a p2 ha hp2s
    rw [hdec] at hnone
    rw [hsls] at hnone
    unfold splitparams
    rw [if_pos hp2s, breakAt_not_mem ';' _ hnone]
  · rw [List.nil_append] at hdec
    rw [← hdec]
    exact hid

/-!
## Helper lemmas: `urlsplit` / `urlparse` invariants
-/

theorem queryStage_fst (rest : Chars) : (queryStage rest).1 = (breakAt '?' rest).1 := by
  unfold queryStage
  rcases hbk : breakAt '?' rest with ⟨a, _ | q⟩ <;> simp

theorem netlocStage_rest_of_nonempty (rest : Chars) (h : (netlocStage rest).1 ≠ []) :
    (netlocStage rest).2 = []
    ∨ ∃ c t, (netlocStage rest).2 = c :: t ∧ (c = '/' ∨ c = '?' ∨ c = '#') := by
  have h2 := netlocStage_nonempty_branch rest h
  unfold netlocStage
  rw [if_pos h2]
  rcases (spanUntil_spec ['/', '?', '#'] (rest.drop 2)).2.2 with hh | ⟨c, t, hct, hcm⟩
  · exact Or.inl hh
  · refine Or.inr ⟨c, t, hct, ?_⟩
    simpa using hcm

theorem urlsplit_parseInv (dflt url : Chars) : ParseInv (urlsplit dflt url) := by
  rw [urlsplit_eq]
  refine ⟨?_, ⟨?_, ?_⟩, ?_, ?_, ?_⟩
  · exact fun c hc => netlocStage_free (schemeStage dflt url).2 c hc
  · exact queryStage_no_qmark (fragStage (netlocStage (schemeStage dflt url).2).2).1
  · intro hm
    apply fragStage_no_hash (netlocStage (schemeStage dflt url).2).2
    rcases queryStage_decomp (fragStage (netlocStage (schemeStage dflt url).2).2).1 with
      ⟨heq, _⟩ | ⟨hdec, _⟩
    · rw [heq] at hm
      exact hm
    · rw [hdec]
      exact List.mem_append_left _ hm
  · intro hm
    apply fragStage_no_hash (netlocStage (schemeStage dflt url).2).2
    rcases queryStage_decomp (fragStage (netlocStage (schemeStage dflt url).2).2).1 with
      ⟨heq, _⟩ | ⟨hdec, _⟩
    · rw [heq] at hm
      exact absurd hm (List.not_mem_nil '#')
    · rw [hdec]
      exact List.mem_append_right _ (List.mem_cons_of_mem '?' hm)
  · intro hne
    rcases netlocStage_rest_of_nonempty (schemeStage dflt url).2 hne with hY | ⟨c, t, hY, hc⟩
    · left
      rw [hY, fragStage_of_no_hash [] (List.not_mem_nil '#')]
      rw [show (([] : Chars), ([] : Chars)).1 = [] from rfl]
      rw [queryStage_of_no_qmark [] (List.not_mem_nil '?')]
    · rcases hc with rfl | rfl | rfl
      · -- '/': path is empty or starts with '/'
        rw [hY]
        have hX : (fragStage ('/' :: t)).1 = '/' :: (breakAt '#' t).1 := by
          rw [fragStage_fst, breakAt_cons_ne '#' '/' t (by decide)]
        rw [hX]
        right
        rw [queryStage_fst, breakAt_cons_ne '?' '/' _ (by decide)]
        rfl
      · -- '?': the path is empty
        rw [hY]
        left
        have hX : (fragStage ('?' :: t)).1 = '?' :: (breakAt '#' t).1 := by
          rw [fragStage_fst, breakAt_cons_ne '#' '?' t (by decide)]
        rw [hX, queryStage_fst, breakAt_cons_eq '?' _]
      · -- '#': the path is empty
        rw [hY]
        left
        have hX : (fragStage ('#' :: t)).1 = [] := by
          rw [fragStage_fst, breakAt_cons_eq '#' t]
        rw [hX, queryStage_of_no_qmark [] (List.not_mem_nil '?')]
  · exact ⟨List.not_mem_nil '#', List.not_mem_nil '?', List.not_mem_nil '/'⟩

theorem urlparse_fields (dflt url : Chars) :
    (urlparse dflt url).scheme = (urlsplit dflt url).scheme
    ∧ (urlparse dflt url).netloc = (urlsplit dflt url).netloc
    ∧ (urlparse dflt url).query = (urlsplit dflt url).query
    ∧ (urlparse dflt url).fragment = (urlsplit dflt url).fragment
    ∧ (((urlparse dflt url).path = (urlsplit dflt url).path
        ∧ (urlparse dflt url).params = []
        ∧ ¬ ((urlsplit dflt url).scheme ∈ usesParams ∧ ';' ∈ (urlsplit dflt url).path))
       ∨ ((urlparse dflt url).path = (splitparams (urlsplit dflt url).path).1
          ∧ (urlparse dflt url).params = (splitparams (urlsplit dflt url).path).2
          ∧ (urlsplit dflt url).scheme ∈ usesParams ∧ ';' ∈ (urlsplit dflt url).path)) := by
  unfold urlparse
  split_ifs with h
  · exact ⟨rfl, rfl, rfl, rfl, Or.inr ⟨rfl, rfl, h.1, h.2⟩⟩
  · refine ⟨rfl, rfl, rfl, rfl, Or.inl ⟨rfl, ?_, h⟩⟩
    rw [urlsplit_eq]

theorem urlparse_parseInv (dflt url : Chars) : ParseInv (urlparse dflt url) := by
  obtain ⟨hsch, hnet, hq, hf, hpp⟩ := urlparse_fields dflt url
  obtain ⟨s1, s2, s3, s4, s5⟩ := urlsplit_parseInv dflt url
  rcases hpp with ⟨hpath, hparams, _⟩ | ⟨hpath, hparams, hcond⟩
  · refine ⟨?_, ?_, ?_, ?_, ?_⟩
    · rw [hnet]; exact s1
    · rw [hpath]; exact s2
    · rw [hq]; exact s3
    · rw [hnet, hpath]; exact s4
    · rw [hparams]
      exact ⟨List.not_mem_nil '#', List.not_mem_nil '?', List.not_mem_nil '/'⟩
  · have hsub := splitparams_subset (urlsplit dflt url).path
    refine ⟨?_, ⟨?_, ?_⟩, ?_, ?_, ?_⟩
    · rw [hnet]; exact s1
    · rw [hpath]
      intro hm
      exact s2.1 (hsub.1 '?' hm)
    · rw [hpath]
      intro hm
      exact s2.2 (hsub.1 '#' hm)
    · rw [hq]; exact s3
    · rw [hnet, hpath]
      intro hne
      rcases s4 hne with hp | hp
      · exact absurd (hp ▸ hcond.2) (List.not_mem_nil ';')
      · right
        exact splitparams_head _ hp
    · rw [hparams]
      refine ⟨fun hm => s2.2 (hsub.2 '#' hm), fun hm => s2.1 (hsub.2 '?' hm), ?_⟩
      exact splitparams_snd_no_slash _

theorem urlparse_paramsClean (dflt url : Chars) :
    ParamsClean (urlparse dflt url).scheme (urlparse dflt url).path := by
  obtain ⟨hsch, _, _, _, hpp⟩ := urlparse_fields dflt url
  rcases hpp with ⟨hpath, _, hno⟩ | ⟨hpath, _, hcond⟩
  · intro ⟨hu, hsem⟩
    rw [hsch] at hu
    rw [hpath] at hsem
    exact absurd ⟨hu, hsem⟩ hno
  · rw [hpath]
    intro _
    exact splitparams_idem _

theorem urlparse_scheme_cases (dflt url : Chars) :
    ((urlparse dflt url).scheme = dflt ∧ splitScheme url = none)
    ∨ (GoodScheme (urlparse dflt url).scheme
       ∧ ∃ r, splitScheme url = some ((urlparse dflt url).scheme, r)) := by
  obtain ⟨hsch, _, _, _, _⟩ := urlparse_fields dflt url
  rw [hsch, urlsplit_eq]
  rcases schemeStage_cases dflt url with h | ⟨h1, h2, h3⟩
  · right
    exact ⟨goodScheme_of_splitScheme url _ _ h, _, h⟩
  · left
    exact ⟨h2, h1⟩

theorem urlsplit_dflt_irrelevant (d1 d2 url : Chars) (h : splitScheme url ≠ none) :
    urlsplit d1 url = urlsplit d2 url := by
  rcases hsp : splitScheme url with _ | ⟨s, r⟩
  · exact absurd hsp h
  · rw [urlsplit_eq, urlsplit_eq]
    simp [schemeStage, hsp]

theorem urlparse_dflt_irrelevant (d1 d2 url : Chars) (h : splitScheme url ≠ none) :
    urlparse d1 url = urlparse d2 url := by
  unfold urlparse
  rw [urlsplit_dflt_irrelevant d1 d2 url h]

/-!
## Helper lemmas: parsing a rebuilt `scheme://netloc path ?query` string
-/

theorem spanUntil_cons_mem (stops : List Char) (c : Char) (t : Chars) (h : c ∈ stops) :
    spanUntil stops (c :: t) = ([], c :: t) := by
  simp [spanUntil, h]

theorem netlocStage_slashslash (X : Chars) :
    netlocStage ('/' :: '/' :: X) = spanUntil ['/', '?', '#'] X := by
  unfold netlocStage
  rw [if_pos (show (('/' : Char) :: '/' :: X).take 2 = cs "//" from rfl)]
  rfl

theorem queryStage_qhead (Q : Chars) : queryStage ('?' :: Q) = ([], Q) := by
  unfold queryStage
  rw [breakAt_cons_eq '?' Q]

theorem queryStage_append (A B : Chars) (h : '?' ∉ A) :
    queryStage (A ++ '?' :: B) = (A, B) := by
  unfold queryStage
  rw [breakAt_append '?' A B h]


theorem parse_normalizeOf (d : Chars) (P : UrlParts)
    (hsc : GoodScheme P.scheme)
    (hn : ∀ c ∈ P.netloc, c ≠ '/' ∧ c ≠ '?' ∧ c ≠ '#')
    (hp : '?' ∉ P.path ∧ '#' ∉ P.path)
    (hq : '#' ∉ P.query)
    (hnp : P.netloc ≠ [] → P.path = [] ∨ P.path.head? = some '/') :
    ∃ n2 p2,
      urlsplit d (normalizeOf P) = ⟨P.scheme, n2, p2, [], P.query, []⟩
      ∧ n2 ++ p2 = P.netloc ++ P.path
      ∧ (∀ c ∈ n2, c ≠ '/')
      ∧ (p2 = [] ∨ p2.head? = some '/')
      ∧ (P.netloc ≠ [] → n2 = P.netloc ∧ p2 = P.path) := by
  have hnfree : ∀ c ∈ P.netloc, c ∉ (['/', '?', '#'] : List Char) := by
    intro c hc hmem
    obtain ⟨h1, h2, h3⟩ := hn c hc
    rcases List.mem_cons.mp hmem with e | hmem
    · exact h1 e
    rcases List.mem_cons.mp hmem with e | hmem
    · exact h2 e
    rcases List.mem_cons.mp hmem with e | hmem
    · exact h3 e
    · exact List.not_mem_nil c hmem
  have hshape : normalizeOf P
      = P.scheme ++ ':' :: ('/' :: '/' :: (P.netloc ++ (P.path
          ++ (if P.query ≠ [] then '?' :: P.query else [])))) := by
    simp only [normalizeOf, List.append_assoc]
    rfl
  have e2 : (schemeStage d (normalizeOf P)).2
      = '/' :: '/' :: (P.netloc ++ (P.path
          ++ (if P.query ≠ [] then '?' :: P.query else []))) := by
    unfold schemeStage
    rw [hshape, splitScheme_build _ _ hsc]
  have e1 : (schemeStage d (normalizeOf P)).1 = P.scheme := by
    unfold schemeStage
    rw [hshape, splitScheme_build _ _ hsc]
  obtain ⟨v1, v2, hv⟩ : ∃ a b, spanUntil ['/', '?', '#'] P.path = (a, b) :=
    ⟨_, _, rfl⟩
  have hvone : v1 ++ v2 = P.path := by
    have := (spanUntil_spec ['/', '?', '#'] P.path).1
    rwa [hv] at this
  have hvfree : ∀ c ∈ v1, c ∉ (['/', '?', '#'] : List Char) := by
    have := (spanUntil_spec ['/', '?', '#'] P.path).2.1
    rwa [hv] at this
  have hvtwo : v2 = [] ∨ ∃ c t, v2 = c :: t ∧ c ∈ (['/', '?', '#'] : List Char) := by
    have := (spanUntil_spec ['/', '?', '#'] P.path).2.2
    rcases this with h | ⟨c, t, hct, hcm⟩
    · left
      rw [hv] at h
      exact h
    · right
      rw [hv] at hct
      exact ⟨c, t, hct, hcm⟩
  have hvslash : v2 = [] ∨ ∃ t, v2 = '/' :: t := by
    rcases hvtwo with h | ⟨c, t, hct, hcm⟩
    · exact Or.inl h
    · right
      have hcp : c ∈ P.path := by
        rw [← hvone, hct]
        exact List.mem_append_right _ (List.mem_cons_self c t)
      have hcslash : c = '/' := by
        rcases List.mem_cons.mp hcm with e | hm
        · exact e
        rcases List.mem_cons.mp hm with e | hm
        · exact absurd (e ▸ hcp) hp.1
        rcases List.mem_cons.mp hm with e | hm
        · exact absurd (e ▸ hcp) hp.2
        · exact absurd hm (List.not_mem_nil c)
      exact ⟨t, hcslash ▸ hct⟩
  have hw : spanUntil ['/', '?', '#']
        (P.path ++ (if P.query ≠ [] then '?' :: P.query else []))
      = (v1, v2 ++ (if P.query ≠ [] then '?' :: P.query else [])) := by
    rcases hvslash with rfl | ⟨t, rfl⟩
    · have hv1 : v1 = P.path := by
        rw [← hvone, List.append_nil]
      have hpfree : ∀ c ∈ P.path, c ∉ (['/', '?', '#'] : List Char) := by
        intro c hc
        rw [← hv1] at hc
        exact hvfree c hc
      split_ifs with hqe
      · rw [spanUntil_append _ _ _ hpfree, spanUntil_cons_mem _ '?' _ (by simp)]
        rw [hv1]
        simp
      · rw [List.append_nil, hv]
        simp
    · have hdec : P.path ++ (if P.query ≠ [] then '?' :: P.query else [])
          = v1 ++ ('/' :: (t ++ (if P.query ≠ [] then '?' :: P.query else []))) := by
        rw [← hvone]
        simp
      rw [hdec, spanUntil_append _ _ _ hvfree, spanUntil_cons_mem _ '/' _ (by simp)]
      simp
  have hYhash : '#' ∉ v2 ++ (if P.query ≠ [] then '?' :: P.query else []) := by
    intro hm
    rcases List.mem_append.mp hm with hm | hm
    · exact hp.2 (by rw [← hvone]; exact List.mem_append_right v1 hm)
    · revert hm
      split_ifs with hqe
      · intro hm
        rcases List.mem_cons.mp hm with e | hm
        · exact absurd e (by decide)
        · exact hq hm
      · exact List.not_mem_nil '#'
  have hfragY : fragStage (v2 ++ (if P.query ≠ [] then '?' :: P.query else []))
      = (v2 ++ (if P.query ≠ [] then '?' :: P.query else []), []) :=
    fragStage_of_no_hash _ hYhash
  have hqv2 : '?' ∉ v2 := by
    intro hm
    exact hp.1 (by rw [← hvone]; exact List.mem_append_right v1 hm)
  have hqsY : queryStage (v2 ++ (if P.query ≠ [] then '?' :: P.query else []))
      = (v2, P.query) := by
    split_ifs with hqe
    · exact queryStage_append v2 P.query hqv2
    · rw [not_not] at hqe
      rw [List.append_nil, queryStage_of_no_qmark v2 hqv2, hqe]
  have efull : urlsplit d (normalizeOf P)
      = ⟨P.scheme, P.netloc ++ v1, v2, [], P.query, []⟩ := by
    rw [urlsplit_eq, e1, e2, netlocStage_slashslash,
        spanUntil_append _ _ _ hnfree, hw]
    rw [show ((P.netloc ++ (v1, v2 ++ (if P.query ≠ [] then '?' :: P.query else [])).1,
          (v1, v2 ++ (if P.query ≠ [] then '?' :: P.query else [])).2) : Chars × Chars).2
        = v2 ++ (if P.query ≠ [] then '?' :: P.query else []) from rfl]
    rw [hfragY]
    rw [show ((v2 ++ (if P.query ≠ [] then '?' :: P.query else []), ([] : Chars)) : Chars × Chars).1
        = v2 ++ (if P.query ≠ [] then '?' :: P.query else []) from rfl]
    rw [hqsY]
  refine ⟨P.netloc ++ v1, v2, efull, ?_, ?_, ?_, ?_⟩
  · rw [List.append_assoc, hvone]
  · intro c hc
    rcases List.mem_append.mp hc with hc | hc
    · exact (hn c hc).1
    · intro e
      exact hvfree c hc (e ▸ List.mem_cons_self '/' ['?', '#'])
  · rcases hvslash with rfl | ⟨t, rfl⟩
    · exact Or.inl rfl
    · exact Or.inr rfl
  · intro hne
    rcases hnp hne with hpe | hph
    · obtain ⟨rfl, rfl⟩ := List.append_eq_nil.mp (hvone.trans hpe)
      exact ⟨List.append_nil P.netloc, hpe.symm⟩
    · have hv1nil : v1 = [] := by
        rcases hv1c : v1 with _ | ⟨c, t⟩
        · rfl
        · rw [hv1c] at hvone
          rw [← hvone] at hph
          simp only [List.cons_append, List.head?_cons, Option.some.injEq] at hph
          have := hvfree c (hv1c ▸ List.mem_cons_self c t)
          exact absurd (hph ▸ List.mem_cons_self '/' ['?', '#']) (hph ▸ this)
      subst hv1nil
      rw [List.nil_append] at hvone
      exact ⟨List.append_nil P.netloc, hvone⟩

theorem urlparse_normalizeOf (d : Chars) (P : UrlParts)
    (hsc : GoodScheme P.scheme)
    (hn : ∀ c ∈ P.netloc, c ≠ '/' ∧ c ≠ '?' ∧ c ≠ '#')
    (hp : '?' ∉ P.path ∧ '#' ∉ P.path)
    (hq : '#' ∉ P.query)
    (hnp : P.netloc ≠ [] → P.path = [] ∨ P.path.head? = some '/')
    (hpc : ParamsClean P.scheme P.path) :
    ∃ n2 p2,
      urlparse d (normalizeOf P) = ⟨P.scheme, n2, p2, [], P.query, []⟩
      ∧ n2 ++ p2 = P.netloc ++ P.path
      ∧ (∀ c ∈ n2, c ≠ '/')
      ∧ (p2 = [] ∨ p2.head? = some '/')
      ∧ (P.netloc ≠ [] → n2 = P.netloc ∧ p2 = P.path) := by
  obtain ⟨n2, p2, hsplit, hsum, hn2, hp2, hne⟩ :=
    parse_normalizeOf d P hsc hn hp hq hnp
  have hpc2 : ParamsClean P.scheme p2 := by
    by_cases hnl : P.netloc = []
    · refine paramsClean_shift P.scheme P.path n2 p2 hpc ?_ ?_ ?_
      · rw [hnl, List.nil_append] at hsum
        exact hsum.symm
      · intro hm
        exact hn2 '/' hm rfl
      · rcases hp2 with h | h
        · exact Or.inl h
        · exact Or.inr (Or.inl h)
    · rw [(hne hnl).2]
      exact hpc
  refine ⟨n2, p2, ?_, hsum, hn2, hp2, hne⟩
  unfold urlparse
  rw [hsplit]
  by_cases hcond : P.scheme ∈ usesParams ∧ ';' ∈ p2
  · rw [if_pos hcond, hpc2 hcond]
  · rw [if_neg hcond]

theorem normalizeOf_concat_eq (sc n1 p1 n2 p2 q : Chars) (h : n1 ++ p1 = n2 ++ p2) :
    normalizeOf ⟨sc, n1, p1, [], q, []⟩ = normalizeOf ⟨sc, n2, p2, [], q, []⟩ := by
  simp only [normalizeOf, List.append_assoc]
  rw [← List.append_assoc n1 p1, h, List.append_assoc]

theorem urlunparse_no_params (sc n p q f : Chars) :
    urlunparse ⟨sc, n, p, [], q, f⟩ = urlunsplit sc n p q f := by
  simp only [urlunparse]
  rw [if_neg (fun h : ([] : Chars) ≠ [] => h rfl)]

theorem urlunsplit_normal (sc n p q : Chars) (hsc : sc ≠ []) (hn : n ≠ [])
    (hp : p = [] ∨ p.head? = some '/') :
    urlunsplit sc n p q []
      = sc ++ cs "://" ++ n ++ p ++ (if q ≠ [] then '?' :: q else []) := by
  have hinner : ¬ (p ≠ [] ∧ p.head? ≠ some '/') := by
    rcases hp with h | h
    · exact fun hc => hc.1 h
    · exact fun hc => hc.2 h
  simp only [urlunsplit]
  rw [if_neg (fun h : ([] : Chars) ≠ [] => h rfl)]
  rw [if_pos (Or.inl hn), if_neg hinner, if_pos hsc]
  rw [show cs "://" = ':' :: cs "//" from rfl]
  split_ifs with hq
  · simp [List.append_assoc]
  · simp [List.append_assoc]

theorem urlunparse_normal (sc n p q : Chars) (hsc : sc ≠ []) (hn : n ≠ [])
    (hp : p = [] ∨ p.head? = some '/') :
    urlunparse ⟨sc, n, p, [], q, []⟩ = normalizeOf ⟨sc, n, p, [], q, []⟩ := by
  rw [urlunparse_no_params, urlunsplit_normal sc n p q hsc hn hp]
  rfl

theorem spanUntil_stopped (stops : List Char) (T : Chars)
    (h : T = [] ∨ ∃ c t, T = c :: t ∧ c ∈ stops) :
    spanUntil stops T = ([], T) := by
  rcases h with rfl | ⟨c, t, rfl, hc⟩
  · rfl
  · simp [spanUntil, hc]

theorem splitScheme_hash_head (f : Chars) : splitScheme ('#' :: f) = none := by
  rcases breakAt_spec ':' ('#' :: f) with ⟨h1, h2⟩ | ⟨a, b, h1, h2, h3⟩
  · simp only [splitScheme]
    rw [h2]
  · have ha : '#' ∈ a := by
      rcases a with _ | ⟨c, t⟩
      · rw [List.nil_append] at h2
        injection h2 with hc ht
        exact absurd hc (by decide)
      · rw [List.cons_append] at h2
        injection h2 with hc ht
        rw [← hc]
        exact List.mem_cons_self _ _
    simp only [splitScheme]
    rw [h3]
    show (if a ≠ [] ∧ isAsciiAlpha (List.headD a ' ') = true ∧ List.all a schemeChar = true
        then some (List.map lowerChar a, b) else none) = none
    rw [if_neg]
    intro ⟨_, _, hall⟩
    exact absurd (List.all_eq_true.mp hall '#' ha) (by decide)

theorem urlsplit_unparse (d sc N pth par q f : Chars)
    (hsc : GoodScheme sc) (hN : N ≠ [])
    (hNfree : ∀ c ∈ N, c ∉ (['/', '?', '#'] : List Char)) :
    (urlsplit d (urlunparse ⟨sc, N, pth, par, q, f⟩)).scheme = sc
    ∧ (urlsplit d (urlunparse ⟨sc, N, pth, par, q, f⟩)).netloc = N := by
  obtain ⟨pp, hpp⟩ : ∃ pp, (if par ≠ [] then pth ++ ';' :: par else pth) = pp := ⟨_, rfl⟩
  have hP3h : (if pp ≠ [] ∧ pp.head? ≠ some '/' then '/' :: pp else pp) = []
      ∨ ∃ t, (if pp ≠ [] ∧ pp.head? ≠ some '/' then '/' :: pp else pp) = '/' :: t := by
    split_ifs with h
    · exact Or.inr ⟨pp, rfl⟩
    · push_neg at h
      rcases pp with _ | ⟨c, t⟩
      · exact Or.inl rfl
      · have := h (List.cons_ne_nil c t)
        simp only [List.head?_cons, Option.some.injEq] at this
        exact Or.inr ⟨t, by rw [this]⟩
  obtain ⟨P3, hP3⟩ :
      ∃ P3, (if pp ≠ [] ∧ pp.head? ≠ some '/' then '/' :: pp else pp) = P3 := ⟨_, rfl⟩
  rw [hP3] at hP3h
  obtain ⟨oQ, hoQ⟩ : ∃ z, (if q ≠ [] then '?' :: q else ([] : Chars)) = z := ⟨_, rfl⟩
  obtain ⟨oF, hoF⟩ : ∃ z, (if f ≠ [] then '#' :: f else ([] : Chars)) = z := ⟨_, rfl⟩
  have hoQsh : oQ = [] ∨ oQ = '?' :: q := by
    rw [← hoQ]
    split_ifs
    · exact Or.inr rfl
    · exact Or.inl rfl
  have hoFsh : oF = [] ∨ oF = '#' :: f := by
    rw [← hoF]
    split_ifs
    · exact Or.inr rfl
    · exact Or.inl rfl
  have hY : P3 ++ (oQ ++ oF) = []
      ∨ ∃ c t, P3 ++ (oQ ++ oF) = c :: t ∧ c ∈ (['/', '?', '#'] : List Char) := by
    rcases hP3h with rfl | ⟨t, rfl⟩
    · rw [List.nil_append]
      rcases hoQsh with rfl | rfl
      · rw [List.nil_append]
        rcases hoFsh with rfl | rfl
        · exact Or.inl rfl
        · exact Or.inr ⟨'#', f, rfl, by decide⟩
      · exact Or.inr ⟨'?', q ++ oF, rfl, by decide⟩
    · exact Or.inr ⟨'/', t ++ (oQ ++ oF), rfl, by decide⟩
  have hshape : urlunparse ⟨sc, N, pth, par, q, f⟩
      = sc ++ ':' :: ('/' :: '/' :: (N ++ (P3 ++ (oQ ++ oF)))) := by
    simp only [urlunparse, urlunsplit]
    rw [hpp, if_pos (Or.inl hN), hP3, if_pos hsc.1, ← hoQ, ← hoF]
    rw [show (cs "//" : Chars) = '/' :: '/' :: [] from rfl]
    split_ifs <;> simp [List.append_assoc]
  have e1 : (schemeStage d (urlunparse ⟨sc, N, pth, par, q, f⟩))
      = (sc, '/' :: '/' :: (N ++ (P3 ++ (oQ ++ oF)))) := by
    unfold schemeStage
    rw [hshape, splitScheme_build _ _ hsc]
  have e2 : netlocStage ('/' :: '/' :: (N ++ (P3 ++ (oQ ++ oF))))
      = (N, P3 ++ (oQ ++ oF)) := by
    rw [netlocStage_slashslash, spanUntil_append _ _ _ hNfree,
        spanUntil_stopped _ _ hY]
    simp
  constructor
  · rw [urlsplit_eq]
    rw [show (⟨(schemeStage d (urlunparse ⟨sc, N, pth, par, q, f⟩)).1,
        (netlocStage (schemeStage d (urlunparse ⟨sc, N, pth, par, q, f⟩)).2).1,
        (queryStage (fragStage (netlocStage (schemeStage d (urlunparse ⟨sc, N, pth, par, q, f⟩)).2).2).1).1,
        [],
        (queryStage (fragStage (netlocStage (schemeStage d (urlunparse ⟨sc, N, pth, par, q, f⟩)).2).2).1).2,
        (fragStage (netlocStage (schemeStage d (urlunparse ⟨sc, N, pth, par, q, f⟩)).2).2).2⟩ :
          UrlParts).scheme
        = (schemeStage d (urlunparse ⟨sc, N, pth, par, q, f⟩)).1 from rfl]
    rw [e1]
  · rw [urlsplit_eq]
    rw [show (⟨(schemeStage d (urlunparse ⟨sc, N, pth, par, q, f⟩)).1,
        (netlocStage (schemeStage d (urlunparse ⟨sc, N, pth, par, q, f⟩)).2).1,
        (queryStage (fragStage (netlocStage (schemeStage d (urlunparse ⟨sc, N, pth, par, q, f⟩)).2).2).1).1,
        [],
        (queryStage (fragStage (netlocStage (schemeStage d (urlunparse ⟨sc, N, pth, par, q, f⟩)).2).2).1).2,
        (fragStage (netlocStage (schemeStage d (urlunparse ⟨sc, N, pth, par, q, f⟩)).2).2).2⟩ :
          UrlParts).netloc
        = (netlocStage (schemeStage d (urlunparse ⟨sc, N, pth, par, q, f⟩)).2).1 from rfl]
    rw [e1]
    rw [show ((sc, '/' :: '/' :: (N ++ (P3 ++ (oQ ++ oF)))) : Chars × Chars).2
        = '/' :: '/' :: (N ++ (P3 ++ (oQ ++ oF))) from rfl]
    rw [e2]

theorem urlParts_eta (u : UrlParts) :
    (⟨u.scheme, u.netloc, u.path, u.params, u.query, u.fragment⟩ : UrlParts) = u := rfl

theorem notMemStops_of_free (N : Chars) (h : ∀ c ∈ N, c ≠ '/' ∧ c ≠ '?' ∧ c ≠ '#') :
    ∀ c ∈ N, c ∉ (['/', '?', '#'] : List Char) := by
  intro c hc hm
  obtain ⟨h1, h2, h3⟩ := h c hc
  rcases List.mem_cons.mp hm with e | hm
  · exact h1 e
  rcases List.mem_cons.mp hm with e | hm
  · exact h2 e
  rcases List.mem_cons.mp hm with e | hm
  · exact h3 e
  · exact List.not_mem_nil c hm

theorem urlparse_unparse (d sc N pth par q f : Chars)
    (hsc : GoodScheme sc) (hN : N ≠ [])
    (hNfree : ∀ c ∈ N, c ∉ (['/', '?', '#'] : List Char)) :
    (urlparse d (urlunparse ⟨sc, N, pth, par, q, f⟩)).scheme = sc
    ∧ (urlparse d (urlunparse ⟨sc, N, pth, par, q, f⟩)).netloc = N := by
  obtain ⟨h1, h2, _, _, _⟩ := urlparse_fields d (urlunparse ⟨sc, N, pth, par, q, f⟩)
  obtain ⟨g1, g2⟩ := urlsplit_unparse d sc N pth par q f hsc hN hNfree
  exact ⟨h1.trans g1, h2.trans g2⟩

theorem urljoinTail_shape (b u : UrlParts) :
    ∃ N P2 Par2 Q2,
      (∀ g, urljoinTail b ⟨u.scheme, u.netloc, u.path, u.params, u.query, g⟩
          = urlunparse ⟨u.scheme, N, P2, Par2, Q2, g⟩)
      ∧ (N = u.netloc ∨ N = b.netloc)
      ∧ (u.scheme ∈ usesNetloc → (N = u.netloc ∧ u.netloc ≠ []) ∨ N = b.netloc)
      ∧ (P2 = u.path ∨ P2 = b.path ∨ P2 = resolvePath b.path u.path)
      ∧ (Par2 = u.params ∨ Par2 = b.params)
      ∧ (Q2 = u.query ∨ Q2 = b.query) := by
  by_cases h1 : u.scheme ∈ usesNetloc ∧ u.netloc ≠ []
  · refine ⟨u.netloc, u.path, u.params, u.query, fun g => ?_, Or.inl rfl,
      fun _ => Or.inl ⟨rfl, h1.2⟩, Or.inl rfl, Or.inl rfl, Or.inl rfl⟩
    simp only [urljoinTail]
    rw [if_pos h1]
  · by_cases h2 : u.path = [] ∧ u.params = []
    · refine ⟨(if u.scheme ∈ usesNetloc then b.netloc else u.netloc), b.path, b.params,
        (if u.query = [] then b.query else u.query), fun g => ?_, ?_, ?_,
        Or.inr (Or.inl rfl), Or.inr rfl, ?_⟩
      · simp only [urljoinTail]
        rw [if_neg h1, if_pos h2]
      · split_ifs
        exacts [Or.inr rfl, Or.inl rfl]
      · intro hm
        rw [if_pos hm]
        exact Or.inr rfl
      · split_ifs
        exacts [Or.inr rfl, Or.inl rfl]
    · refine ⟨(if u.scheme ∈ usesNetloc then b.netloc else u.netloc),
        resolvePath b.path u.path, u.params, u.query, fun g => ?_, ?_, ?_,
        Or.inr (Or.inr rfl), Or.inl rfl, Or.inl rfl⟩
      · simp only [urljoinTail]
        rw [if_neg h1, if_neg h2]
      · split_ifs
        exacts [Or.inr rfl, Or.inl rfl]
      · intro hm
        rw [if_pos hm]
        exact Or.inr rfl

theorem wfHttpBase_ne_nil (base : Chars) (hb : WfHttpBase base) : base ≠ [] := by
  rintro rfl
  rcases hb.1 with h | h <;> exact absurd h (by decide)

theorem wfHttpBase_goodScheme (base : Chars) (hb : WfHttpBase base) :
    GoodScheme (urlparse [] base).scheme := by
  rcases hb.1 with h | h <;> rw [h] <;>
    exact ⟨by decide, by decide, by decide, by decide⟩

theorem wfHttpBase_usesRelative (base : Chars) (hb : WfHttpBase base) :
    (urlparse [] base).scheme ∈ usesRelative := by
  rcases hb.1 with h | h <;> rw [h] <;> decide

theorem wfHttpBase_usesNetloc (base : Chars) (hb : WfHttpBase base) :
    (urlparse [] base).scheme ∈ usesNetloc := by
  rcases hb.1 with h | h <;> rw [h] <;> decide

theorem urljoin_parse_good (base u : Chars) (hb : WfHttpBase base) :
    GoodScheme (urlparse [] (urljoin base u)).scheme
    ∧ ((urlparse [] (urljoin base u)).scheme = (urlparse [] base).scheme
        → (urlparse [] (urljoin base u)).netloc ≠ []) := by
  have hbne := wfHttpBase_ne_nil base hb
  have hbrel := wfHttpBase_usesRelative base hb
  by_cases hu : u = []
  · rw [hu, show urljoin base [] = base from by simp [urljoin, hbne]]
    exact ⟨wfHttpBase_goodScheme base hb, fun _ => hb.2⟩
  · simp only [urljoin]
    rw [if_neg hbne, if_neg hu]
    by_cases hg : (urlparse (urlparse [] base).scheme u).scheme ≠ (urlparse [] base).scheme
        ∨ (urlparse (urlparse [] base).scheme u).scheme ∉ usesRelative
    · rw [if_pos hg]
      rcases urlparse_scheme_cases (urlparse [] base).scheme u with
        ⟨hd, hnone⟩ | ⟨hgood, r, hsome⟩
      · exfalso
        rcases hg with hg | hg
        · exact hg hd
        · rw [hd] at hg
          exact hg hbrel
      · have hne : splitScheme u ≠ none := by
          rw [hsome]
          simp
        have heq : urlparse [] u = urlparse (urlparse [] base).scheme u :=
          urlparse_dflt_irrelevant [] _ u hne
        rw [heq]
        refine ⟨hgood, fun hsch => ?_⟩
        exfalso
        rcases hg with hg | hg
        · exact hg hsch
        · rw [hsch] at hg
          exact hg hbrel
    · rw [if_neg hg]
      push_neg at hg
      obtain ⟨hsch, hrel⟩ := hg
      obtain ⟨N, P2, Par2, Q2, hjt, hNor, hNuses, _, _, _⟩ :=
        urljoinTail_shape (urlparse [] base) (urlparse (urlparse [] base).scheme u)
      have hjoin := hjt (urlparse (urlparse [] base).scheme u).fragment
      rw [urlParts_eta] at hjoin
      rw [hjoin]
      have hNne : N ≠ [] := by
        rcases hNuses (by rw [hsch]; exact wfHttpBase_usesNetloc base hb) with ⟨rfl, hne⟩ | rfl
        · exact hne
        · exact hb.2
      have hNfree : ∀ c ∈ N, c ∉ (['/', '?', '#'] : List Char) := by
        rcases hNor with rfl | rfl
        · exact notMemStops_of_free _ (urlparse_parseInv _ u).1
        · exact notMemStops_of_free _ (urlparse_parseInv [] base).1
      have hgood : GoodScheme (urlparse (urlparse [] base).scheme u).scheme := by
        rw [hsch]
        exact wfHttpBase_goodScheme base hb
      obtain ⟨e1, e2⟩ := urlparse_unparse [] _ N P2 Par2 Q2 _ hgood hNne hNfree
      rw [e1, e2]
      exact ⟨hgood, fun _ => hNne⟩

theorem normalize_fix (base : Chars) (P : UrlParts) (hb : WfHttpBase base)
    (hsc : GoodScheme P.scheme)
    (hn : ∀ c ∈ P.netloc, c ≠ '/' ∧ c ≠ '?' ∧ c ≠ '#')
    (hp : '?' ∉ P.path ∧ '#' ∉ P.path)
    (hq : '#' ∉ P.query)
    (hnp : P.netloc ≠ [] → P.path = [] ∨ P.path.head? = some '/')
    (hpc : ParamsClean P.scheme P.path)
    (hbr : P.scheme = (urlparse [] base).scheme → P.netloc ≠ []) :
    normalizeUrl base (normalizeOf P) = normalizeOf P := by
  have hbne := wfHttpBase_ne_nil base hb
  have hshape : normalizeOf P
      = P.scheme ++ ':' :: ('/' :: '/' :: (P.netloc ++ (P.path
          ++ (if P.query ≠ [] then '?' :: P.query else [])))) := by
    simp only [normalizeOf, List.append_assoc]
    rfl
  have hsne : normalizeOf P ≠ [] := by
    rw [hshape]
    intro he
    obtain ⟨-, h2⟩ := List.append_eq_nil.mp he
    exact List.cons_ne_nil _ _ h2
  obtain ⟨n2, p2, hP2, hsum, hn2, hp2, hne2⟩ :=
    urlparse_normalizeOf (urlparse [] base).scheme P hsc hn hp hq hnp hpc
  obtain ⟨n0, p0, hP0, hsum0, hn0, hp0, hne0⟩ :=
    urlparse_normalizeOf [] P hsc hn hp hq hnp hpc
  unfold normalizeUrl
  simp only [urljoin]
  rw [if_neg hbne, if_neg hsne, hP2]
  by_cases hS : P.scheme = (urlparse [] base).scheme
  · have hnl := hbr hS
    obtain ⟨he1, he2⟩ := hne2 hnl
    subst he1
    subst he2
    have hguard : ¬(P.scheme ≠ (urlparse [] base).scheme
        ∨ P.scheme ∉ usesRelative) := by
      push_neg
      refine ⟨hS, ?_⟩
      rw [hS]
      exact wfHttpBase_usesRelative base hb
    rw [if_neg hguard]
    have htl : urljoinTail (urlparse [] base)
          ⟨P.scheme, P.netloc, P.path, [], P.query, []⟩
        = urlunparse ⟨P.scheme, P.netloc, P.path, [], P.query, []⟩ := by
      simp only [urljoinTail]
      rw [if_pos ⟨by rw [hS]; exact wfHttpBase_usesNetloc base hb, hnl⟩]
    rw [htl, urlunparse_normal P.scheme P.netloc P.path P.query hsc.1 hnl (hnp hnl)]
    rw [show normalizeOf ⟨P.scheme, P.netloc, P.path, [], P.query, []⟩
        = normalizeOf P from rfl]
    rw [hP0]
    obtain ⟨g1, g2⟩ := hne0 hnl
    subst g1
    subst g2
    exact rfl
  · rw [if_pos (Or.inl hS)]
    rw [hP0]
    calc normalizeOf ⟨P.scheme, n0, p0, [], P.query, []⟩
        = normalizeOf ⟨P.scheme, P.netloc, P.path, [], P.query, []⟩ :=
          normalizeOf_concat_eq P.scheme n0 p0 P.netloc P.path P.query hsum0
      _ = normalizeOf P := rfl

theorem breakAt_append_left (stop : Char) (p t : Chars) (h : stop ∉ p) :
    breakAt stop (p ++ t) = (p ++ (breakAt stop t).1, (breakAt stop t).2) := by
  induction p with
  | nil => simp
  | cons c rest ih =>
    simp only [List.mem_cons, not_or] at h
    have h1 : ¬ (c = stop) := fun e => h.1 e.symm
    simp [breakAt, h1, ih h.2]

theorem splitScheme_eq_some_case (X pre rest : Chars)
    (hbk : breakAt ':' X = (pre, some rest)) :
    splitScheme X
      = if pre ≠ [] ∧ isAsciiAlpha (pre.headD ' ') = true ∧ pre.all schemeChar = true
        then some (pre.map lowerChar, rest) else none := by
  simp only [splitScheme]
  rw [hbk]

theorem splitScheme_eq_none_case (X pre : Chars) (hbk : breakAt ':' X = (pre, none)) :
    splitScheme X = none := by
  simp only [splitScheme]
  rw [hbk]

theorem splitScheme_append_fragment (p f : Chars) (hp : '#' ∉ p) :
    (splitScheme (p ++ '#' :: f) = none ∧ splitScheme p = none)
    ∨ ∃ sc r, splitScheme p = some (sc, r)
        ∧ splitScheme (p ++ '#' :: f) = some (sc, r ++ '#' :: f) ∧ '#' ∉ r := by
  rcases breakAt_spec ':' p with ⟨h1, h2⟩ | ⟨a, b, h1, h2, h3⟩
  · rcases breakAt_spec ':' f with ⟨hf1, hf2⟩ | ⟨fa, fb, hf1, hf2, hf3⟩
    · have hnm : ':' ∉ p ++ '#' :: f := by
        intro hm
        rcases List.mem_append.mp hm with hm | hm
        · exact h1 hm
        · rcases List.mem_cons.mp hm with e | hm
          · exact absurd e (by decide)
          · exact hf1 hm
      exact Or.inl ⟨splitScheme_eq_none_case _ _ (breakAt_not_mem ':' _ hnm),
        splitScheme_eq_none_case _ _ h2⟩
    · have hdec : p ++ '#' :: f = (p ++ '#' :: fa) ++ ':' :: fb := by
        rw [hf2]
        simp
      have hnm : ':' ∉ p ++ '#' :: fa := by
        intro hm
        rcases List.mem_append.mp hm with hm | hm
        · exact h1 hm
        · rcases List.mem_cons.mp hm with e | hm
          · exact absurd e (by decide)
          · exact hf1 hm
      have hbk : breakAt ':' (p ++ '#' :: f) = (p ++ '#' :: fa, some fb) := by
        rw [hdec]
        exact breakAt_append ':' _ fb hnm
      left
      refine ⟨?_, splitScheme_eq_none_case _ _ h2⟩
      rw [splitScheme_eq_some_case _ _ _ hbk, if_neg]
      intro ⟨_, _, hall⟩
      exact absurd (List.all_eq_true.mp hall '#'
        (List.mem_append_right p (List.mem_cons_self _ _))) (by decide)
  · have hdec : p ++ '#' :: f = a ++ ':' :: (b ++ '#' :: f) := by
      rw [h2]
      simp
    have hbk2 : breakAt ':' (p ++ '#' :: f) = (a, some (b ++ '#' :: f)) := by
      rw [hdec]
      exact breakAt_append ':' a _ h1
    have hbnm : '#' ∉ b := by
      intro hm
      apply hp
      rw [h2]
      exact List.mem_append_right a (List.mem_cons_of_mem ':' hm)
    rw [splitScheme_eq_some_case _ _ _ h3, splitScheme_eq_some_case _ _ _ hbk2]
    by_cases hcond : a ≠ [] ∧ isAsciiAlpha (a.headD ' ') = true ∧ a.all schemeChar = true
    · rw [if_pos hcond, if_pos hcond]
      exact Or.inr ⟨a.map lowerChar, b, rfl, rfl, hbnm⟩
    · rw [if_neg hcond, if_neg hcond]
      exact Or.inl ⟨rfl, rfl⟩

theorem schemeStage_append_fragment (d p f : Chars) (hp : '#' ∉ p) :
    (schemeStage d (p ++ '#' :: f)).1 = (schemeStage d p).1
    ∧ (schemeStage d (p ++ '#' :: f)).2 = (schemeStage d p).2 ++ '#' :: f
    ∧ '#' ∉ (schemeStage d p).2 := by
  rcases splitScheme_append_fragment p f hp with ⟨ha, hb⟩ | ⟨sc, r, hb, ha, hr⟩
  · unfold schemeStage
    rw [ha, hb]
    exact ⟨rfl, rfl, hp⟩
  · unfold schemeStage
    rw [ha, hb]
    exact ⟨rfl, rfl, hr⟩

theorem spanUntil_append_fragment (stops : List Char) (t f : Chars) (h : '#' ∈ stops) :
    spanUntil stops (t ++ '#' :: f)
      = ((spanUntil stops t).1, (spanUntil stops t).2 ++ '#' :: f) := by
  induction t with
  | nil => simp [spanUntil, h]
  | cons c t' ih =>
    by_cases hc : c ∈ stops
    · simp [spanUntil, hc]
    · simp [spanUntil, hc, ih]

theorem netlocStage_append_fragment (rest f : Chars) (h : '#' ∉ rest) :
    netlocStage (rest ++ '#' :: f)
      = ((netlocStage rest).1, (netlocStage rest).2 ++ '#' :: f)
    ∧ '#' ∉ (netlocStage rest).2 := by
  have h2 : '#' ∉ (netlocStage rest).2 := by
    intro hm
    apply h
    unfold netlocStage at hm
    split_ifs at hm with hc
    · have hsp := (spanUntil_spec ['/', '?', '#'] (rest.drop 2)).1
      have hdm : '#' ∈ rest.drop 2 := by
        rw [← hsp]
        exact List.mem_append_right _ hm
      exact List.drop_subset 2 rest hdm
    · exact hm
  refine ⟨?_, h2⟩
  rcases rest with _ | ⟨c1, r1⟩
  · rw [List.nil_append]
    unfold netlocStage
    rw [if_neg (show ¬ (('#' :: f).take 2 = cs "//") from by
      intro he
      rcases f with _ | ⟨x, t⟩ <;> exact absurd he (by
        intro hee
        injection hee with he1 he2
        exact absurd he1 (by decide))),
      if_neg (show ¬ (([] : Chars).take 2 = cs "//") from by decide)]
    rfl
  · rcases r1 with _ | ⟨c2, r2⟩
    · rw [List.cons_append, List.nil_append]
      unfold netlocStage
      rw [if_neg (show ¬ ((c1 :: '#' :: f).take 2 = cs "//") from by
        intro he
        injection he with he1 he2
        injection he2 with he3 he4
        exact absurd he3 (by decide)),
        if_neg (show ¬ (([c1] : Chars).take 2 = cs "//") from by
        intro he
        injection he with he1 he2
        exact absurd he2 (by decide))]
      rfl
    · have htk : ((c1 :: c2 :: r2) ++ '#' :: f).take 2 = (c1 :: c2 :: r2).take 2 := rfl
      unfold netlocStage
      by_cases hcd : (c1 :: c2 :: r2).take 2 = cs "//"
      · rw [if_pos (htk.trans hcd), if_pos hcd]
        have hdr : ((c1 :: c2 :: r2) ++ '#' :: f).drop 2 = r2 ++ '#' :: f := rfl
        rw [hdr, show (c1 :: c2 :: r2).drop 2 = r2 from rfl]
        exact spanUntil_append_fragment _ r2 f (by decide)
      · rw [if_neg (fun he => hcd (htk.symm.trans he)), if_neg hcd]

theorem urlsplit_append_fragment (d p f : Chars) (hp : '#' ∉ p) :
    urlsplit d (p ++ '#' :: f)
      = ⟨(urlsplit d p).scheme, (urlsplit d p).netloc, (urlsplit d p).path, [],
         (urlsplit d p).query, f⟩
    ∧ (urlsplit d p).fragment = [] := by
  obtain ⟨e1, e2, e3⟩ := schemeStage_append_fragment d p f hp
  obtain ⟨e4, e5⟩ := netlocStage_append_fragment (schemeStage d p).2 f e3
  have hfs : fragStage ((netlocStage (schemeStage d p).2).2 ++ '#' :: f)
      = ((netlocStage (schemeStage d p).2).2, f) := by
    unfold fragStage
    rw [breakAt_append '#' _ f e5]
  have hfs0 : fragStage ((netlocStage (schemeStage d p).2).2)
      = ((netlocStage (schemeStage d p).2).2, []) := fragStage_of_no_hash _ e5
  constructor
  · rw [urlsplit_eq d (p ++ '#' :: f), urlsplit_eq d p]
    simp only [e1, e2, e4, hfs, hfs0]
  · rw [urlsplit_eq d p]
    simp only [hfs0]

theorem urlparse_append_fragment (d p f : Chars) (hp : '#' ∉ p) :
    urlparse d (p ++ '#' :: f)
      = ⟨(urlparse d p).scheme, (urlparse d p).netloc, (urlparse d p).path,
         (urlparse d p).params, (urlparse d p).query, f⟩ := by
  obtain ⟨hsp, hfr⟩ := urlsplit_append_fragment d p f hp
  obtain ⟨g1, g2, g3, g4, g5⟩ := urlparse_fields d p
  by_cases hcond : (urlsplit d p).scheme ∈ usesParams ∧ ';' ∈ (urlsplit d p).path
  · have hLHS : urlparse d (p ++ '#' :: f)
        = ⟨(urlsplit d p).scheme, (urlsplit d p).netloc,
           (splitparams (urlsplit d p).path).1, (splitparams (urlsplit d p).path).2,
           (urlsplit d p).query, f⟩ := by
      unfold urlparse
      rw [hsp, if_pos hcond]
    rcases g5 with ⟨_, _, hno⟩ | ⟨hpath, hparams, _⟩
    · exact absurd hcond hno
    · rw [hLHS, g1, g2, g3, hpath, hparams]
  · have hLHS : urlparse d (p ++ '#' :: f)
        = ⟨(urlsplit d p).scheme, (urlsplit d p).netloc, (urlsplit d p).path, [],
           (urlsplit d p).query, f⟩ := by
      unfold urlparse
      rw [hsp, if_neg hcond]
    rcases g5 with ⟨hpath, hparams, _⟩ | ⟨_, _, hcond2⟩
    · rw [hLHS, g1, g2, g3, hpath, hparams]
    · exact absurd hcond2 hcond

theorem splitSlashAux_chars (p : Chars) :
    ∀ acc x, x ∈ splitSlashAux p acc → ∀ c ∈ x, c ∈ p ∨ c ∈ acc := by
  induction p with
  | nil =>
    intro acc x hx c hc
    simp only [splitSlashAux, List.mem_singleton] at hx
    subst hx
    exact Or.inr (List.mem_reverse.mp hc)
  | cons a rest ih =>
    intro acc x hx c hc
    simp only [splitSlashAux] at hx
    split_ifs at hx with ha
    · rcases List.mem_cons.mp hx with rfl | hx
      · exact Or.inr (List.mem_reverse.mp hc)
      · rcases ih [] x hx c hc with h | h
        · exact Or.inl (List.mem_cons_of_mem a h)
        · exact absurd h (List.not_mem_nil c)
    · rcases ih (a :: acc) x hx c hc with h | h
      · exact Or.inl (List.mem_cons_of_mem a h)
      · rcases List.mem_cons.mp h with rfl | h
        · exact Or.inl (List.mem_cons_self _ _)
        · exact Or.inr h

theorem splitSlash_chars (p : Chars) (x : Chars) (hx : x ∈ splitSlash p) :
    ∀ c ∈ x, c ∈ p := by
  intro c hc
  rcases splitSlashAux_chars p [] x hx c hc with h | h
  · exact h
  · exact absurd h (List.not_mem_nil c)

theorem joinSlash_chars (L : List Chars) :
    ∀ c ∈ joinSlash L, c = '/' ∨ ∃ x ∈ L, c ∈ x := by
  induction L with
  | nil =>
    intro c hc
    exact absurd hc (List.not_mem_nil c)
  | cons a rest ih =>
    intro c hc
    rcases rest with _ | ⟨b, rest2⟩
    · exact Or.inr ⟨a, List.mem_singleton_self a, hc⟩
    · have hc2 : c ∈ a ++ '/' :: joinSlash (b :: rest2) := hc
      rcases List.mem_append.mp hc2 with h | h
      · exact Or.inr ⟨a, List.mem_cons_self _ _, h⟩
      · rcases List.mem_cons.mp h with rfl | h
        · exact Or.inl rfl
        · rcases ih c h with h2 | ⟨x, hx1, hx2⟩
          · exact Or.inl h2
          · exact Or.inr ⟨x, List.mem_cons_of_mem a hx1, hx2⟩

theorem getLastD_mem_self (l : List Chars) : ∀ d, l ≠ [] → l.getLastD d ∈ l := by
  induction l with
  | nil =>
    intro d h
    exact absurd rfl h
  | cons a rest ih =>
    intro d h
    rw [List.getLastD_cons]
    by_cases hr : rest = []
    · subst hr
      simp
    · exact List.mem_cons_of_mem a (ih a hr)

theorem filterMiddle_subset (L : List Chars) (x : Chars) (hx : x ∈ filterMiddle L) :
    x ∈ L ∨ x = [] := by
  rcases L with _ | ⟨a, rest⟩
  · exact absurd hx (List.not_mem_nil x)
  · rcases rest with _ | ⟨b, rest2⟩
    · exact Or.inl hx
    · have hx2 : x ∈ a :: (((b :: rest2).dropLast.filter (fun s => s ≠ []))
          ++ [(b :: rest2).getLastD []]) := hx
      rcases List.mem_cons.mp hx2 with rfl | hx3
      · exact Or.inl (List.mem_cons_self _ _)
      · rcases List.mem_append.mp hx3 with h | h
        · exact Or.inl (List.mem_cons_of_mem a
            ((List.dropLast_sublist _).subset (List.mem_of_mem_filter h)))
        · rw [List.mem_singleton] at h
          subst h
          exact Or.inl (List.mem_cons_of_mem a
            (getLastD_mem_self (b :: rest2) [] (List.cons_ne_nil b rest2)))

theorem resolveFold_subset (Q : Chars → Prop) :
    ∀ (segs : List Chars) (acc : List Chars), (∀ s ∈ segs, Q s) → (∀ x ∈ acc, Q x) →
      ∀ x ∈ segs.foldl (fun acc seg =>
          if seg = cs ".." then acc.dropLast
          else if seg = cs "." then acc
          else acc ++ [seg]) acc, Q x := by
  intro segs
  induction segs with
  | nil =>
    intro acc _ hacc x hx
    exact hacc x hx
  | cons s rest ih =>
    intro acc hsegs hacc x hx
    rw [List.foldl_cons] at hx
    refine ih _ (fun t ht => hsegs t (List.mem_cons_of_mem s ht)) ?_ x hx
    split_ifs with h1 h2
    · exact fun t ht => hacc t ((List.dropLast_sublist acc).subset ht)
    · exact hacc
    · intro t ht
      rcases List.mem_append.mp ht with ht | ht
      · exact hacc t ht
      · rw [List.mem_singleton] at ht
        subst ht
        exact hsegs t (List.mem_cons_self _ _)

theorem resolvePath_chars (bp up : Chars) :
    ∀ c ∈ resolvePath bp up, c = '/' ∨ c ∈ bp ∨ c ∈ up := by
  intro c hc
  simp only [resolvePath] at hc
  obtain ⟨segs, hsegs⟩ : ∃ z, (if up.head? = some '/' then splitSlash up
      else filterMiddle ((if (splitSlash bp).getLastD [] ≠ [] then (splitSlash bp).dropLast
        else splitSlash bp) ++ splitSlash up)) = z := ⟨_, rfl⟩
  rw [hsegs] at hc
  have hsegQ : ∀ s ∈ segs, ∀ c2 ∈ s, c2 ∈ bp ∨ c2 ∈ up := by
    intro s hs c2 hc2
    rw [← hsegs] at hs
    split_ifs at hs with hh hd
    · exact Or.inr (splitSlash_chars up s hs c2 hc2)
    · rcases filterMiddle_subset _ s hs with hs2 | rfl
      · rcases List.mem_append.mp hs2 with hs3 | hs3
        · exact Or.inl (splitSlash_chars bp s ((List.dropLast_sublist _).subset hs3) c2 hc2)
        · exact Or.inr (splitSlash_chars up s hs3 c2 hc2)
      · exact absurd hc2 (List.not_mem_nil c2)
    · rcases filterMiddle_subset _ s hs with hs2 | rfl
      · rcases List.mem_append.mp hs2 with hs3 | hs3
        · exact Or.inl (splitSlash_chars bp s hs3 c2 hc2)
        · exact Or.inr (splitSlash_chars up s hs3 c2 hc2)
      · exact absurd hc2 (List.not_mem_nil c2)
  obtain ⟨R2, hR2e⟩ : ∃ z, (if segs.getLastD [] = cs ".." ∨ segs.getLastD [] = cs "."
      then (segs.foldl (fun acc seg =>
          if seg = cs ".." then acc.dropLast
          else if seg = cs "." then acc
          else acc ++ [seg]) []) ++ [[]]
      else segs.foldl (fun acc seg =>
          if seg = cs ".." then acc.dropLast
          else if seg = cs "." then acc
          else acc ++ [seg]) []) = z := ⟨_, rfl⟩
  rw [hR2e] at hc
  have hR2 : ∀ x ∈ R2, ∀ c2 ∈ x, c2 ∈ bp ∨ c2 ∈ up := by
    intro x hx
    rw [← hR2e] at hx
    have hQfold := resolveFold_subset (fun y => ∀ c2 ∈ y, c2 ∈ bp ∨ c2 ∈ up) segs []
      hsegQ (fun y hy => absurd hy (List.not_mem_nil y))
    split_ifs at hx with h
    · rcases List.mem_append.mp hx with hx | hx
      · exact hQfold x hx
      · rw [List.mem_singleton] at hx
        subst hx
        intro c2 hc2
        exact absurd hc2 (List.not_mem_nil c2)
    · exact hQfold x hx
  split_ifs at hc with hnp
  · exact Or.inl (List.mem_singleton.mp hc)
  · rcases joinSlash_chars R2 c hc with h | ⟨x, hx1, hx2⟩
    · exact Or.inl h
    · exact Or.inr (hR2 x hx1 c hx2)

theorem parseInv_no_hash (P : UrlParts) (h : ParseInv P) :
    '#' ∉ P.netloc ∧ '#' ∉ P.path ∧ '#' ∉ P.params ∧ '#' ∉ P.query := by
  obtain ⟨h1, ⟨_, h2⟩, h3, _, ⟨h4, _, _⟩⟩ := h
  exact ⟨fun hm => (h1 '#' hm).2.2 rfl, h2, h4, h3⟩

theorem parse_scheme_no_hash (base p : Chars) (hb : WfHttpBase base) :
    '#' ∉ (urlparse (urlparse [] base).scheme p).scheme := by
  rcases urlparse_scheme_cases (urlparse [] base).scheme p with ⟨hd, _⟩ | ⟨hg, _⟩
  · rw [hd]
    rcases hb.1 with h | h <;> rw [h] <;> decide
  · exact (goodScheme_chars _ hg).2.2.2.1

theorem urlunparse_fragment (sc n pth par q f : Chars) :
    urlunparse ⟨sc, n, pth, par, q, f⟩
      = urlunparse ⟨sc, n, pth, par, q, []⟩ ++ (if f ≠ [] then '#' :: f else []) := by
  simp only [urlunparse, urlunsplit]
  rw [if_neg (fun h : ([] : Chars) ≠ [] => h rfl)]
  by_cases hf : f ≠ []
  · rw [if_pos hf, if_pos hf]
  · rw [if_neg hf, if_neg hf, List.append_nil]

theorem urlunparse_no_hash (sc n pth par q : Chars)
    (h1 : '#' ∉ sc) (h2 : '#' ∉ n) (h3 : '#' ∉ pth) (h4 : '#' ∉ par) (h5 : '#' ∉ q) :
    '#' ∉ urlunparse ⟨sc, n, pth, par, q, []⟩ := by
  have hpp : '#' ∉ (if par ≠ [] then pth ++ ';' :: par else pth) := by
    split_ifs
    · intro hm2
      rcases List.mem_append.mp hm2 with h | h
      · exact h3 h
      · rcases List.mem_cons.mp h with e | h
        · exact absurd e (by decide)
        · exact h4 h
    · exact h3
  obtain ⟨pp, hppq⟩ : ∃ z, (if par ≠ [] then pth ++ ';' :: par else pth) = z := ⟨_, rfl⟩
  rw [hppq] at hpp
  have hpath2 : '#' ∉ (if pp ≠ [] ∧ pp.head? ≠ some '/' then '/' :: pp else pp) := by
    split_ifs
    · intro hm
      rcases List.mem_cons.mp hm with e | hm
      · exact absurd e (by decide)
      · exact hpp hm
    · exact hpp
  have hX1 : '#' ∉ (if n ≠ [] ∨ pp.take 2 = cs "//"
      then cs "//" ++ n ++ (if pp ≠ [] ∧ pp.head? ≠ some '/' then '/' :: pp else pp)
      else pp) := by
    split_ifs with hn0 hi
    · intro hm
      rcases List.mem_append.mp hm with hm | hm
      · rcases List.mem_append.mp hm with hm | hm
        · exact absurd hm (by decide)
        · exact h2 hm
      · rcases List.mem_cons.mp hm with e | hm
        · exact absurd e (by decide)
        · exact hpp hm
    · intro hm
      rcases List.mem_append.mp hm with hm | hm
      · rcases List.mem_append.mp hm with hm | hm
        · exact absurd hm (by decide)
        · exact h2 hm
      · exact hpp hm
    · exact hpp
  obtain ⟨X1, hX1e⟩ : ∃ z, (if n ≠ [] ∨ pp.take 2 = cs "//"
      then cs "//" ++ n ++ (if pp ≠ [] ∧ pp.head? ≠ some '/' then '/' :: pp else pp)
      else pp) = z := ⟨_, rfl⟩
  rw [hX1e] at hX1
  have hX2 : '#' ∉ (if sc ≠ [] then sc ++ ':' :: X1 else X1) := by
    split_ifs
    · intro hm
      rcases List.mem_append.mp hm with hm | hm
      · exact h1 hm
      · rcases List.mem_cons.mp hm with e | hm
        · exact absurd e (by decide)
        · exact hX1 hm
    · exact hX1
  obtain ⟨X2, hX2e⟩ : ∃ z, (if sc ≠ [] then sc ++ ':' :: X1 else X1) = z := ⟨_, rfl⟩
  rw [hX2e] at hX2
  intro hm
  simp only [urlunparse, urlunsplit] at hm
  rw [if_neg (fun h : ([] : Chars) ≠ [] => h rfl), hppq, hX1e, hX2e] at hm
  revert hm
  split_ifs
  · intro hm
    rcases List.mem_append.mp hm with hm | hm
    · exact hX2 hm
    · rcases List.mem_cons.mp hm with e | hm
      · exact absurd e (by decide)
      · exact h5 hm
  · exact hX2

theorem normalizeOf_parse_hash_append (T f : Chars) (hT : '#' ∉ T) :
    normalizeOf (urlparse [] (T ++ '#' :: f)) = normalizeOf (urlparse [] T) := by
  rw [urlparse_append_fragment [] T f hT]
  rfl

theorem normalizeOf_parse_unparse_fragment (sc n pth par q f : Chars)
    (h1 : '#' ∉ sc) (h2 : '#' ∉ n) (h3 : '#' ∉ pth) (h4 : '#' ∉ par) (h5 : '#' ∉ q) :
    normalizeOf (urlparse [] (urlunparse ⟨sc, n, pth, par, q, f⟩))
      = normalizeOf (urlparse [] (urlunparse ⟨sc, n, pth, par, q, []⟩)) := by
  rw [urlunparse_fragment]
  by_cases hf : f ≠ []
  · rw [if_pos hf]
    exact normalizeOf_parse_hash_append _ f (urlunparse_no_hash sc n pth par q h1 h2 h3 h4 h5)
  · rw [if_neg hf, List.append_nil]

theorem urlparse_params_slash (dflt url : Chars)
    (hn : (urlparse dflt url).netloc ≠ []) (hp : (urlparse dflt url).params ≠ []) :
    '/' ∈ (urlparse dflt url).path := by
  obtain ⟨_, g2, _, _, g5⟩ := urlparse_fields dflt url
  obtain ⟨s1, s2, s3, s4, s5⟩ := urlsplit_parseInv dflt url
  rcases g5 with ⟨_, hparams, _⟩ | ⟨hpath, hparams, hcond⟩
  · rw [hparams] at hp
    exact absurd rfl hp
  · rw [hparams] at hp
    have hn0 : (urlsplit dflt url).netloc ≠ [] := by
      rw [← g2]
      exact hn
    rcases s4 hn0 with hp0 | hp0
    · rw [hp0] at hp
      exact absurd (by decide) hp
    · have hslash : '/' ∈ (urlsplit dflt url).path := by
        rcases hpc : (urlsplit dflt url).path with _ | ⟨c, t⟩
        · rw [hpc] at hp0
          simp at hp0
        · rw [hpc] at hp0
          simp only [List.head?_cons, Option.some.injEq] at hp0
          rw [hp0]
          exact List.mem_cons_self _ _
      rcases hbk : breakAt ';' (splitAtLastSlash (urlsplit dflt url).path).2 with ⟨b1, o⟩
      rcases o with _ | b2
      · have hval : splitparams (urlsplit dflt url).path = ((urlsplit dflt url).path, []) := by
          unfold splitparams
          rw [if_pos hslash, hbk]
        rw [hpath, hval]
        exact hslash
      · have hval : splitparams (urlsplit dflt url).path
            = ((splitAtLastSlash (urlsplit dflt url).path).1 ++ b1, b2) := by
          unfold splitparams
          rw [if_pos hslash, hbk]
        rw [hpath, hval]
        rcases (splitAtLastSlash_spec (urlsplit dflt url).path).2.2 hslash with ⟨a2, ha2⟩
        show '/' ∈ (splitAtLastSlash (urlsplit dflt url).path).1 ++ b1
        refine List.mem_append_left b1 ?_
        rw [ha2]
        exact List.mem_append_right a2 (by simp)

theorem splitparams_recombine (pth par : Chars)
    (hslash : '/' ∈ pth) (hparfree : '/' ∉ par)
    (hlast : ';' ∉ (splitAtLastSlash pth).2) :
    splitparams (pth ++ ';' :: par) = (pth, par) := by
  have hs2 : '/' ∈ pth ++ ';' :: par := List.mem_append_left _ hslash
  have hnsemi : '/' ∉ ';' :: par := by
    intro hm
    rcases List.mem_cons.mp hm with e | hm
    · exact absurd e (by decide)
    · exact hparfree hm
  have hsls := splitAtLastSlash_append_left pth (';' :: par) hslash hnsemi
  have hbk : breakAt ';' ((splitAtLastSlash pth).2 ++ ';' :: par)
      = ((splitAtLastSlash pth).2, some par) := breakAt_append ';' _ par hlast
  unfold splitparams
  rw [if_pos hs2]
  rw [show (splitAtLastSlash (pth ++ ';' :: par)).2 = (splitAtLastSlash pth).2 ++ ';' :: par
      from by rw [hsls]]
  rw [show (splitAtLastSlash (pth ++ ';' :: par)).1 = (splitAtLastSlash pth).1
      from by rw [hsls]]
  rw [hbk]
  show ((splitAtLastSlash pth).1 ++ (splitAtLastSlash pth).2, par) = (pth, par)
  rw [(splitAtLastSlash_spec pth).1]

theorem urlparse_eq_of_urlsplit (d url : Chars) (S : UrlParts)
    (h : urlsplit d url = S) (hcond : S.scheme ∈ usesParams ∧ ';' ∈ S.path) :
    urlparse d url = ⟨S.scheme, S.netloc, (splitparams S.path).1, (splitparams S.path).2,
      S.query, S.fragment⟩ := by
  unfold urlparse
  rw [h, if_pos hcond]

theorem urlparse_eq_of_urlsplit_noparams (d url : Chars) (S : UrlParts)
    (h : urlsplit d url = S) (hcond : ¬ (S.scheme ∈ usesParams ∧ ';' ∈ S.path)) :
    urlparse d url = S := by
  unfold urlparse
  rw [h, if_neg hcond]

theorem normalizeOf_parse_unparse (base : Chars) (hb : WfHttpBase base) :
    normalizeOf (urlparse [] (urlunparse
      ⟨(urlparse [] base).scheme, (urlparse [] base).netloc, (urlparse [] base).path,
       (urlparse [] base).params, (urlparse [] base).query, []⟩))
      = normalizeOf (urlparse [] base) := by
  obtain ⟨i1, ⟨i2a, i2b⟩, i3, i4, ⟨i5a, i5b, i5c⟩⟩ := urlparse_parseInv [] base
  have hgood := wfHttpBase_goodScheme base hb
  have hN : (urlparse [] base).netloc ≠ [] := hb.2
  have husesP : (urlparse [] base).scheme ∈ usesParams := by
    rcases hb.1 with h | h <;> rw [h] <;> decide
  obtain ⟨pp, hppe⟩ : ∃ z, (if (urlparse [] base).params ≠ []
      then (urlparse [] base).path ++ ';' :: (urlparse [] base).params
      else (urlparse [] base).path) = z := ⟨_, rfl⟩
  have hpphead : pp = [] ∨ pp.head? = some '/' := by
    rw [← hppe]
    split_ifs with hpar
    · have hsl := urlparse_params_slash [] base hN hpar
      rcases i4 hN with hp0 | hp0
      · rw [hp0] at hsl
        exact absurd hsl (List.not_mem_nil '/')
      · right
        rcases hpath : (urlparse [] base).path with _ | ⟨c, t⟩
        · rw [hpath] at hp0
          simp at hp0
        · rw [hpath] at hp0
          simp only [List.head?_cons, Option.some.injEq] at hp0
          rw [List.cons_append, List.head?_cons, hp0]
    · exact i4 hN
  have hppq : '?' ∉ pp := by
    rw [← hppe]
    split_ifs
    · intro hm
      rcases List.mem_append.mp hm with hm | hm
      · exact i2a hm
      · rcases List.mem_cons.mp hm with e | hm
        · exact absurd e (by decide)
        · exact i5b hm
    · exact i2a
  have hpph : '#' ∉ pp := by
    rw [← hppe]
    split_ifs
    · intro hm
      rcases List.mem_append.mp hm with hm | hm
      · exact i2b hm
      · rcases List.mem_cons.mp hm with e | hm
        · exact absurd e (by decide)
        · exact i5a hm
    · exact i2b
  have hT : urlunparse ⟨(urlparse [] base).scheme, (urlparse [] base).netloc,
        (urlparse [] base).path, (urlparse [] base).params, (urlparse [] base).query, []⟩
      = normalizeOf ⟨(urlparse [] base).scheme, (urlparse [] base).netloc, pp, [],
        (urlparse [] base).query, []⟩ := by
    have h1 : urlunparse ⟨(urlparse [] base).scheme, (urlparse [] base).netloc,
          (urlparse [] base).path, (urlparse [] base).params, (urlparse [] base).query, []⟩
        = urlunsplit (urlparse [] base).scheme (urlparse [] base).netloc pp
          (urlparse [] base).query [] := by
      simp only [urlunparse]
      rw [hppe]
    rw [h1, urlunsplit_normal _ _ _ _ hgood.1 hN hpphead]
    rfl
  rw [hT]
  by_cases hpar : (urlparse [] base).params = []
  · have hppeq : pp = (urlparse [] base).path := by
      rw [← hppe, if_neg (fun hc => hc hpar)]
    subst hppeq
    obtain ⟨n2, p2, hP0, hsum0, _, _, hne0⟩ := urlparse_normalizeOf []
      ⟨(urlparse [] base).scheme, (urlparse [] base).netloc, (urlparse [] base).path, [],
        (urlparse [] base).query, []⟩
      hgood i1 ⟨i2a, i2b⟩ i3 (fun _ => i4 hN) (urlparse_paramsClean [] base)
    rw [hP0]
    obtain ⟨g1, g2⟩ := hne0 hN
    subst g1
    subst g2
    rfl
  · have hppeq : pp = (urlparse [] base).path ++ ';' :: (urlparse [] base).params := by
      rw [← hppe, if_pos hpar]
    have hsl := urlparse_params_slash [] base hN hpar
    have hlast : ';' ∉ (splitAtLastSlash (urlparse [] base).path).2 := by
      by_cases hsem : ';' ∈ (urlparse [] base).path
      · have hid := urlparse_paramsClean [] base ⟨husesP, hsem⟩
        intro hmem
        rcases breakAt_spec ';' (splitAtLastSlash (urlparse [] base).path).2 with
          ⟨hb1, _⟩ | ⟨b1, b2, hb1, hb2, hb3⟩
        · exact hb1 hmem
        · have hval : splitparams (urlparse [] base).path
              = ((splitAtLastSlash (urlparse [] base).path).1 ++ b1, b2) := by
            unfold splitparams
            rw [if_pos hsl, hb3]
          rw [hid] at hval
          have hfst : (urlparse [] base).path
              = (splitAtLastSlash (urlparse [] base).path).1 ++ b1 :=
            congrArg Prod.fst hval
          have hfull : (splitAtLastSlash (urlparse [] base).path).1 ++ (b1 ++ ';' :: b2)
              = (urlparse [] base).path := by
            rw [← hb2]
            exact (splitAtLastSlash_spec _).1
          have hcc : b1 ++ ';' :: b2 = b1 := List.append_cancel_left (hfull.trans hfst)
          have hlen := congrArg List.length hcc
          simp at hlen
      · intro hmem
        apply hsem
        rw [← (splitAtLastSlash_spec (urlparse [] base).path).1]
        exact List.mem_append_right _ hmem
    have hrec : splitparams pp = ((urlparse [] base).path, (urlparse [] base).params) := by
      rw [hppeq]
      exact splitparams_recombine _ _ hsl i5c hlast
    obtain ⟨n2, p2, hsp, hsum, hn2, hp2s, hne⟩ := parse_normalizeOf []
      ⟨(urlparse [] base).scheme, (urlparse [] base).netloc, pp, [],
        (urlparse [] base).query, []⟩
      hgood i1 ⟨hppq, hpph⟩ i3 (fun _ => hpphead)
    rw [(show p2 = pp from (hne hN).2)] at hsp
    rw [(show n2 = (urlparse [] base).netloc from (hne hN).1)] at hsp
    have hsem2 : ';' ∈ pp := by
      rw [hppeq]
      exact List.mem_append_right _ (List.mem_cons_self _ _)
    have hfull := urlparse_eq_of_urlsplit [] _ _ hsp ⟨husesP, hsem2⟩
    rw [hfull]
    show normalizeOf ⟨(urlparse [] base).scheme, (urlparse [] base).netloc,
        (splitparams pp).1, (splitparams pp).2, (urlparse [] base).query, []⟩
      = normalizeOf (urlparse [] base)
    rw [hrec]
    rfl

theorem normalize_frag (base p f : Chars) (hb : WfHttpBase base) (hp : '#' ∉ p) :
    normalizeUrl base (p ++ '#' :: f) = normalizeUrl base p := by
  have hbne := wfHttpBase_ne_nil base hb
  have hbrel := wfHttpBase_usesRelative base hb
  by_cases hpe : p = []
  · subst hpe
    rw [List.nil_append]
    have hsp1 : urlsplit (urlparse [] base).scheme ('#' :: f)
        = ⟨(urlparse [] base).scheme, [], [], [], [], f⟩ := by
      have e1 : schemeStage (urlparse [] base).scheme ('#' :: f)
          = ((urlparse [] base).scheme, '#' :: f) := by
        unfold schemeStage
        rw [splitScheme_hash_head]
      have e2 : netlocStage ('#' :: f) = ([], '#' :: f) := by
        unfold netlocStage
        rw [if_neg (show ¬ (('#' :: f).take 2 = cs "//") from by
          intro he
          have he2 : ('#' :: f.take 1) = cs "//" := he
          injection he2 with he3 he4
          exact absurd he3 (by decide))]
      have e3 : fragStage ('#' :: f) = ([], f) := by
        unfold fragStage
        rw [breakAt_cons_eq]
      have e4 : queryStage ([] : Chars) = ([], []) := rfl
      rw [urlsplit_eq]
      simp only [e1, e2, e3, e4]
    have hpar1 : urlparse (urlparse [] base).scheme ('#' :: f)
        = ⟨(urlparse [] base).scheme, [], [], [], [], f⟩ :=
      urlparse_eq_of_urlsplit_noparams _ _ _ hsp1 (fun hc => List.not_mem_nil ';' hc.2)
    unfold normalizeUrl
    simp only [urljoin]
    rw [if_neg hbne, if_neg hbne]
    rw [if_neg (List.cons_ne_nil '#' f), if_pos trivial]
    rw [hpar1]
    have hguard : ¬((⟨(urlparse [] base).scheme, [], [], [], [], f⟩ : UrlParts).scheme
          ≠ (urlparse [] base).scheme
        ∨ (⟨(urlparse [] base).scheme, [], [], [], [], f⟩ : UrlParts).scheme
          ∉ usesRelative) := by
      push_neg
      exact ⟨rfl, hbrel⟩
    rw [if_neg hguard]
    have htl : urljoinTail (urlparse [] base) ⟨(urlparse [] base).scheme, [], [], [], [], f⟩
        = urlunparse ⟨(urlparse [] base).scheme, (urlparse [] base).netloc,
            (urlparse [] base).path, (urlparse [] base).params,
            (urlparse [] base).query, f⟩ := by
      simp only [urljoinTail]
      rw [if_neg (fun hc => hc.2 rfl)]
      rw [if_pos (show True ∧ True from ⟨trivial, trivial⟩)]
      rw [if_pos (wfHttpBase_usesNetloc base hb), if_pos trivial]
    rw [htl]
    obtain ⟨hh1, hh2, hh3, hh4⟩ := parseInv_no_hash _ (urlparse_parseInv [] base)
    have hsch_nohash : '#' ∉ (urlparse [] base).scheme := by
      rcases hb.1 with h | h <;> rw [h] <;> decide
    rw [normalizeOf_parse_unparse_fragment _ _ _ _ _ f hsch_nohash hh1 hh2 hh3 hh4]
    exact normalizeOf_parse_unparse base hb
  · have hpfne : p ++ '#' :: f ≠ [] := by
      intro he
      exact hpe (List.append_eq_nil.mp he).1
    have hfrag := urlparse_append_fragment (urlparse [] base).scheme p f hp
    have hfr0 : (urlparse (urlparse [] base).scheme p).fragment = [] := by
      obtain ⟨_, _, _, g4, _⟩ := urlparse_fields (urlparse [] base).scheme p
      rw [g4]
      exact (urlsplit_append_fragment (urlparse [] base).scheme p f hp).2
    unfold normalizeUrl
    simp only [urljoin]
    rw [if_neg hbne, if_neg hbne, if_neg hpfne, if_neg hpe]
    rw [hfrag]
    by_cases hg : (urlparse (urlparse [] base).scheme p).scheme ≠ (urlparse [] base).scheme
        ∨ (urlparse (urlparse [] base).scheme p).scheme ∉ usesRelative
    · rw [if_pos hg, if_pos hg]
      exact normalizeOf_parse_hash_append p f hp
    · rw [if_neg hg, if_neg hg]
      obtain ⟨N, P2, Par2, Q2, hjt, hNor, _, hPor, hParor, hQor⟩ :=
        urljoinTail_shape (urlparse [] base) (urlparse (urlparse [] base).scheme p)
      have hL := hjt f
      have hR := hjt (urlparse (urlparse [] base).scheme p).fragment
      rw [urlParts_eta] at hR
      rw [hL, hR, hfr0]
      obtain ⟨j1, j2, j3, j4⟩ :=
        parseInv_no_hash _ (urlparse_parseInv (urlparse [] base).scheme p)
      obtain ⟨k1, k2, k3, k4⟩ := parseInv_no_hash _ (urlparse_parseInv [] base)
      refine normalizeOf_parse_unparse_fragment _ _ _ _ _ f
        (parse_scheme_no_hash base p hb) ?_ ?_ ?_ ?_
      · rcases hNor with rfl | rfl
        · exact j1
        · exact k1
      · rcases hPor with rfl | rfl | rfl
        · exact j2
        · exact k2
        · intro hm
          rcases resolvePath_chars _ _ '#' hm with he | he | he
          · exact absurd he (by decide)
          · exact k2 he
          · exact j2 he
      · rcases hParor with rfl | rfl
        · exact j3
        · exact k3
      · rcases hQor with rfl | rfl
        · exact j4
        · exact k4

/-!
## Claim C8: normalization idempotence and fragment invariance

`extract_links` normalizes each candidate as
`normalizeUrl base link = normalizeOf (urlparse [] (urljoin base link))`
(crawler.py lines 148-160).  For any well-formed http(s) page URL `base`,
this normalization is idempotent, and two links differing only in their
fragment normalize to the same string.
-/

/-- **C8**: URL normalization in `extract_links` (resolve against the page
URL, re-parse, rebuild `scheme://netloc+path+query`, dropping fragment and
params) is idempotent — normalizing an already-normalized URL returns it
unchanged — and two URLs that differ only in their fragment (`p` vs
`p#f`) normalize to byte-equal strings, for every link and every
well-formed http(s) page URL `base`. -/
theorem C8_normalize_idempotent_and_fragment_invariant
    (base u p f : Chars) (hb : WfHttpBase base) (hp : '#' ∉ p) :
    normalizeUrl base (normalizeUrl base u) = normalizeUrl base u
    ∧ normalizeUrl base (p ++ '#' :: f) = normalizeUrl base p := by
  constructor
  · obtain ⟨hg, hbr⟩ := urljoin_parse_good base u hb
    obtain ⟨i1, i2, i3, i4, _⟩ := urlparse_parseInv [] (urljoin base u)
    exact normalize_fix base (urlparse [] (urljoin base u)) hb hg i1 i2 i3 i4
      (urlparse_paramsClean [] _) hbr
  · exact normalize_frag base p f hb hp

/-- Closed instance of C8 with a concrete page URL, relative link, and
fragment pair. -/
theorem C8_witness :
    WfHttpBase (cs "http://h/a/") ∧ '#' ∉ cs "b"
    ∧ normalizeUrl (cs "http://h/a/") (normalizeUrl (cs "http://h/a/") (cs "../x?q=1#z"))
        = normalizeUrl (cs "http://h/a/") (cs "../x?q=1#z")
    ∧ normalizeUrl (cs "http://h/a/") (cs "b" ++ '#' :: cs "z")
        = normalizeUrl (cs "http://h/a/") (cs "b") :=
  ⟨⟨Or.inl (by decide), by decide⟩, by decide,
   (C8_normalize_idempotent_and_fragment_invariant (cs "http://h/a/") (cs "../x?q=1#z")
     (cs "b") (cs "z") ⟨Or.inl (by decide), by decide⟩ (by decide)).1,
   (C8_normalize_idempotent_and_fragment_invariant (cs "http://h/a/") (cs "../x?q=1#z")
     (cs "b") (cs "z") ⟨Or.inl (by decide), by decide⟩ (by decide)).2⟩

/-!
## Claim C7: what the link filter actually drops

`extract_links` (crawler.py lines 141-165) drops a candidate link iff the
urljoin-resolved link's netloc differs from the page URL's netloc, after
the in-page JavaScript collector has already dropped falsy hrefs and hrefs
starting with `javascript:` or `mailto:`.  No other scheme check exists:
a same-host link with a non-http scheme (such as `ftp:`) is kept.
-/

theorem orderedFilteredLinks_mem (base : Chars) (links : List Chars) (l : Chars)
    (hl : l ∈ orderedFilteredLinks base links) :
    ∃ link ∈ links, (urlparse [] (urljoin base link)).netloc = (urlparse [] base).netloc
      ∧ l = normalizeOf (urlparse [] (urljoin base link)) := by
  have main : ∀ (ls : List Chars) (acc : List Chars),
      l ∈ ls.foldl (fun acc link =>
        if (urlparse [] (urljoin base link)).netloc = (urlparse [] base).netloc
        then acc ++ [normalizeOf (urlparse [] (urljoin base link))] else acc) acc
      → l ∈ acc ∨ ∃ link ∈ ls,
          (urlparse [] (urljoin base link)).netloc = (urlparse [] base).netloc
          ∧ l = normalizeOf (urlparse [] (urljoin base link)) := by
    intro ls
    induction ls with
    | nil =>
      intro acc h
      exact Or.inl h
    | cons a rest ih =>
      intro acc h
      rw [List.foldl_cons] at h
      rcases ih _ h with hacc | ⟨link, hlink, hnet, hval⟩
      · revert hacc
        split_ifs with hcond
        · intro hacc
          rcases List.mem_append.mp hacc with h2 | h2
          · exact Or.inl h2
          · rw [List.mem_singleton] at h2
            exact Or.inr ⟨a, List.mem_cons_self _ _, hcond, h2⟩
        · exact fun hacc => Or.inl hacc
      · exact Or.inr ⟨link, List.mem_cons_of_mem a hlink, hnet, hval⟩
  rcases main links [] hl with h | h
  · exact absurd h (List.not_mem_nil l)
  · exact h

/-- **C7** (counterexample): a same-host link with the non-HTTP(S) scheme
`ftp:` passes the filter of `extract_links` and appears in the returned
candidate list, refuting "every link whose scheme is not HTTP(S)" is
dropped. -/
theorem C7_counterexample_ftp_link_kept :
    extract_links dedupKeepFirst [cs "ftp://example.com/x"] (cs "http://example.com/")
      = [cs "ftp://example.com/x"] := by decide

/-- **C7** (amended): the silent filter is host equality plus the in-page
href filter: every returned link's host equals the page URL's host, and
`javascript:`/`mailto:`-prefixed hrefs never survive the href filter; no
further scheme check is performed. -/
theorem C7_amended_same_host_and_js_filter
    (pset : List Chars → List Chars) (hset : ValidSetEnum pset)
    (hrefs : List Chars) (base : Chars) (hb : WfHttpBase base) :
    (∀ l ∈ extract_links pset hrefs base,
      (urlparse [] l).netloc = (urlparse [] base).netloc)
    ∧ (∀ href, ((cs "javascript:").isPrefixOf href ∨ (cs "mailto:").isPrefixOf href)
        → href ∉ hrefs.filter jsKeep) := by
  constructor
  · intro l hl
    have hl2 : l ∈ orderedFilteredLinks base (hrefs.filter jsKeep) :=
      ((hset _).2 l).mp hl
    obtain ⟨link, _, hnet, hval⟩ := orderedFilteredLinks_mem base _ l hl2
    obtain ⟨hg, _⟩ := urljoin_parse_good base link hb
    obtain ⟨i1, i2, i3, i4, _⟩ := urlparse_parseInv [] (urljoin base link)
    have hNne : (urlparse [] (urljoin base link)).netloc ≠ [] := by
      rw [hnet]
      exact hb.2
    obtain ⟨n2, p2, hP0, _, _, _, hne0⟩ := urlparse_normalizeOf []
      (urlparse [] (urljoin base link)) hg i1 i2 i3 i4 (urlparse_paramsClean [] _)
    obtain ⟨g1, g2⟩ := hne0 hNne
    rw [hval, hP0]
    show n2 = (urlparse [] base).netloc
    rw [g1]
    exact hnet
  · intro href hpre hmem
    rw [List.mem_filter] at hmem
    have hjk2 : jsKeep href = true := hmem.2
    simp only [jsKeep, decide_eq_true_eq] at hjk2
    rcases hpre with hpre | hpre
    · exact hjk2.2.1 hpre
    · exact hjk2.2.2 hpre

/-- Closed instance of the amended C7 statement at a concrete href list
and page URL. -/
theorem C7_amended_witness :
    ValidSetEnum dedupKeepFirst ∧ WfHttpBase (cs "http://h/")
    ∧ (∀ l ∈ extract_links dedupKeepFirst
        [cs "http://h/a", cs "javascript:void(0)"] (cs "http://h/"),
        (urlparse [] l).netloc = (urlparse [] (cs "http://h/")).netloc)
    ∧ (∀ href, ((cs "javascript:").isPrefixOf href ∨ (cs "mailto:").isPrefixOf href)
        → href ∉ ([cs "http://h/a", cs "javascript:void(0)"] : List Chars).filter jsKeep) :=
  ⟨validSetEnum_dedupKeepFirst, ⟨Or.inl (by decide), by decide⟩,
   (C7_amended_same_host_and_js_filter dedupKeepFirst validSetEnum_dedupKeepFirst
     [cs "http://h/a", cs "javascript:void(0)"] (cs "http://h/")
     ⟨Or.inl (by decide), by decide⟩).1,
   (C7_amended_same_host_and_js_filter dedupKeepFirst validSetEnum_dedupKeepFirst
     [cs "http://h/a", cs "javascript:void(0)"] (cs "http://h/")
     ⟨Or.inl (by decide), by decide⟩).2⟩
